import Mathlib

/-!
Verification of the flume workflow engine (packages/flume) against its
specification.  The definitions below are a shallow embedding of the
TypeScript source: JavaScript runtime values become the inductive `JVal`,
objects become association lists of fields kept in insertion order, and the
executor's asynchronous effects (observer notifications, retry sleeps,
event publishes) become an explicit trace.
-/

set_option maxRecDepth 8000

namespace Flume

/-- A JavaScript runtime value, as the merge module and the engine see it.
`vspecial` stands for a non-plain object (a `Date`, `Map`, `Set`, class
instance, ...): `typeof` calls it an object, but its prototype is not
`Object.prototype`, so `isPlainObject` rejects it and it carries no own
enumerable properties of interest here. -/
inductive JVal : Type where
  | vundef
  | vnull
  | vbool (b : Bool)
  | vnum (n : Int)
  | vstr (s : String)
  | varr (elems : List JVal)
  | vobj (fields : List (String × JVal))
  | vspecial (tag : Nat)
deriving Repr

/-- Object fields in insertion order, as JavaScript keeps them. -/
abbrev Fields := List (String × JVal)

/-- Property read on an object: first field with the given key. -/
def lookupKey : Fields → String → Option JVal
  | [], _ => none
  | (k, v) :: rest, key => if k = key then some v else lookupKey rest key

/-- Whether an object has an own property named `key`. -/
def hasKey (fs : Fields) (key : String) : Bool :=
  (lookupKey fs key).isSome

/-- Property write `o[key] = v`: updates the existing field in place,
otherwise appends — JavaScript's insertion-order semantics. -/
def setKey : Fields → String → JVal → Fields
  | [], key, v => [(key, v)]
  | (k, w) :: rest, key, v =>
      if k = key then (k, v) :: rest else (k, w) :: setKey rest key v

/-- JavaScript truthiness. -/
def truthy : JVal → Bool
  | .vundef => false
  | .vnull => false
  | .vbool b => b
  | .vnum n => n != 0
  | .vstr s => s ≠ ""
  | .varr _ => true
  | .vobj _ => true
  | .vspecial _ => true

/-- `typeof v === "object"` (true for `null`, arrays and all objects). -/
def typeofObject : JVal → Bool
  | .vnull => true
  | .varr _ => true
  | .vobj _ => true
  | .vspecial _ => true
  | _ => false

/-- Property access `v[key]` as the engine uses it (`event.eventType`):
only plain objects carry the properties of interest, everything else
yields `undefined`. -/
def getProp (v : JVal) (key : String) : JVal :=
  match v with
  | .vobj fs => (lookupKey fs key).getD .vundef
  | _ => (.vundef)

/-- `isPlainObject` from utils.ts: not null, `typeof` object, and prototype
`Object.prototype` or null — i.e. exactly the plain-object constructor. -/
def isPlainObject : JVal → Bool
  | .vobj _ => true
  | _ => false

/-- `Array.isArray`. -/
def isArray : JVal → Bool
  | .varr _ => true
  | _ => false

/-- The keys spread / `Object.assign` read from a source value: own
enumerable properties.  Arrays expose their indices, strings their
character positions, non-plain objects nothing. -/
def assignFields : JVal → Fields
  | .vobj fs => fs
  | .varr xs => (List.range xs.length).zip xs |>.map (fun p => (toString p.1, p.2))
  | .vstr s => (List.range s.length).zip (s.data.map (fun c => JVal.vstr (String.mk [c])))
      |>.map (fun p => (toString p.1, p.2))
  | _ => []

/-- The keys a `for (const key in v)` loop visits. -/
def forInKeys (v : JVal) : List String :=
  (assignFields v).map (·.1)

/-- Spread a list of fields onto an accumulator, later writes winning:
`{...acc, ...fields}` / the per-key half of `Object.assign`. -/
def spreadOnto (acc : Fields) (fs : Fields) : Fields :=
  fs.foldl (fun a p => setKey a p.1 p.2) acc

/-- `Object.assign({}, ...results)`. -/
def objectAssign (results : List JVal) : Fields :=
  results.foldl (fun acc r => spreadOnto acc (assignFields r)) []

/-! ## The deep-merge algorithm (utils.ts `deepMerge`)

The source recurses through the accumulated result
(`deepMerge(existingVal, newVal)` where `existingVal` was read back out of
`result`), so the recursion is not structural; we thread an explicit fuel
that is consumed once per object-nesting level and later prove every fuel
at least the values' object depth computes the same function. -/
mutual

/-- Object-nesting depth of a value.  Array elements are never recursed
into by `deepMerge` (arrays are concatenated wholesale), so they do not
count. -/
def jdepth : JVal → Nat
  | .vobj fs => 1 + jdepthF fs
  | _ => 0

def jdepthF : Fields → Nat
  | [] => 0
  | (_, v) :: rest => max (jdepth v) (jdepthF rest)

end

mutual

/-- One iteration of the `for key in obj` body of `deepMerge`: fold the
field `(key, newVal)` into `result`. -/
def dmKey (fuel : Nat) (result : Fields) (key : String) (newVal : JVal) : Fields :=
  match newVal with
  | .varr xs =>
      match lookupKey result key with
      | some (.varr es) => setKey result key (.varr (es ++ xs))
      | _ => setKey result key (.varr xs)
  | .vobj nv =>
      match fuel with
      | 0 => setKey result key (.vobj nv)
      | fuel' + 1 =>
          match lookupKey result key with
          | some (.vobj ev) =>
              setKey result key (.vobj (dmFields fuel' (dmFields fuel' [] ev) nv))
          | _ => setKey result key (.vobj (dmFields fuel' [] nv))
  | v => setKey result key v
termination_by (fuel, 0)

/-- The `for key in obj` loop of `deepMerge`, folding one source object's
fields into the accumulated result. -/
def dmFields (fuel : Nat) (result : Fields) : Fields → Fields
  | [] => result
  | (k, v) :: rest => dmFields fuel (dmKey fuel result k v) rest
termination_by l => (fuel, l.length + 1)

end

/-- Largest object depth among a list of candidate source values. -/
def jdepthList (objects : List JVal) : Nat :=
  objects.foldr (fun o acc => max (jdepth o) acc) 0

/-- The loop body of `deepMerge(...objects)`: non-plain sources are
skipped (`if (!isPlainObject(obj)) continue`). -/
def deepMergeGo (fuel : Nat) (objects : List JVal) : Fields :=
  objects.foldl
    (fun result o =>
      if isPlainObject o then
        match o with
        | .vobj fs => dmFields fuel result fs
        | _ => result
      else result)
    []

/-- `deepMerge(...objects)` from utils.ts, run with fuel that the lemmas
below show is adequate. -/
def deepMerge (objects : List JVal) : Fields :=
  deepMergeGo (jdepthList objects) objects

/-! ## Parallel merge strategies (flow-factories.ts `parallel`) -/
/-- The three merge strategies. -/
inductive MergeStrategy : Type where
  | shallow
  | errorOnConflict
  | deep
deriving Repr, DecidableEq

/-- The conflict error message `parallel` raises under error-on-conflict. -/
def conflictMsg (name key : String) : String :=
  "[Workflow:" ++ name ++ "] Key conflict detected in parallel merge: \'" ++ key ++ "\'"

/-- One object's keys checked against the accumulated key set
(`allKeys.has(key)` then `allKeys.add(key)`): either the extended set or
the first key already present. -/
def scanKeys (seen : List String) : List String → List String ⊕ String
  | [] => .inl seen
  | k :: ks => if seen.contains k then .inr k else scanKeys (k :: seen) ks

/-- The conflict scan of the error-on-conflict branch: walk every result's
`for in` keys in order against the accumulated key set and report the
first key already seen. -/
def conflictScan (seen : List String) : List JVal → Option String
  | [] => none
  | r :: rest =>
      if truthy r && typeofObject r then
        match scanKeys seen (forInKeys r) with
        | .inl seen' => conflictScan seen' rest
        | .inr key => some key
      else conflictScan seen rest

/-- The merge the handler built by `parallel(name, strategy, ...handlers)`
applies to the settled handler results. -/
def parallelCombine (name : String) (strategy : MergeStrategy)
    (results : List JVal) : Except String Fields :=
  match strategy with
  | .errorOnConflict =>
      match conflictScan [] results with
      | some key => .error (conflictMsg name key)
      | none => .ok (objectAssign results)
  | .deep => .ok (deepMerge (.vobj [] :: results))
  | .shallow => .ok (objectAssign results)

/-! ## Well-formed values

A value built from a real JavaScript object graph has pairwise-distinct
keys in every (plain-)object along the object spine; `deepMerge` preserves
this.  The lemmas about the merge strategies assume it. -/
mutual

/-- Hereditarily distinct keys along the object spine. -/
def wfV : JVal → Bool
  | .vobj fs => wfF fs
  | _ => true

/-- Distinct keys and well-formed field values. -/
def wfF : Fields → Bool
  | [] => true
  | (k, v) :: rest => !hasKey rest k && wfV v && wfF rest

end

/-- Distinct keys of a single field list (no recursion into values). -/
def nodupKeys : Fields → Bool
  | [] => true
  | (k, _) :: rest => !hasKey rest k && nodupKeys rest

/-- The value `dmKey` stores at `key`, as a function of the existing value
and the new one. -/
def dmKeyVal (fuel : Nat) (old : Option JVal) (v : JVal) : JVal :=
  match v with
  | .varr xs =>
      match old with
      | some (.varr es) => .varr (es ++ xs)
      | _ => .varr xs
  | .vobj nv =>
      match fuel with
      | 0 => .vobj nv
      | fuel' + 1 =>
          match old with
          | some (.vobj ev) => .vobj (dmFields fuel' (dmFields fuel' [] ev) nv)
          | _ => .vobj (dmFields fuel' [] nv)
  | v => v

/-- Depth of an optional existing value. -/
def odepth : Option JVal → Nat
  | none => 0
  | some v => jdepth v

/-- The keys the conflict scan reads off one settled result. -/
def enumKeysOf (r : JVal) : List String :=
  if truthy r && typeofObject r then forInKeys r else []

/-- All keys the conflict scan visits, in visit order. -/
def keyList (rs : List JVal) : List String :=
  (rs.map enumKeysOf).flatten

/-! ### The shallow strategy: last writer wins -/
/-- The value the latest partial that carries `k` assigns to it. -/
def lastLookup : List JVal → String → Option JVal
  | [], _ => none
  | r :: rest, k =>
      match lastLookup rest k with
      | some v => some v
      | none => lookupKey (assignFields r) k

/-! ## The execution engine (flow-executor.ts `FlowExecutor`)

The executor is asynchronous; its effects — observer notifications, retry
sleeps, event publishes — are recorded on an explicit trace, and wall-clock
time (`Date.now()`) becomes a counter advanced by each handler invocation's
declared duration and by each retry sleep.  A handler's closure state (the
tests' `attempts++` counters) is modelled by handing the handler its attempt
number. -/
/-- The engine's error classes (types.ts).  None subclasses another, so
`instanceof ValidationError` holds exactly for `validationError`. -/
inductive JError : Type where
  | validationError (msg : String)
  | genericError (msg : String)
  | timeoutError (msg : String) (flowName : String) (stepName : Option String)
      (timeoutMs : Option Nat)
  | flowExecutionError (msg : String) (flowName : String) (stepName : Option String)
deriving Repr

/-- `lastError instanceof ValidationError`. -/
def isValidationError : JError → Bool
  | .validationError _ => true
  | _ => false

/-- Run metadata (types.ts `FlowMeta`). -/
structure FlowMeta where
  flowName : String
  startedAt : Nat
  currentStep : Option String := none
  correlationId : Option String := none
deriving Repr

/-- The dependency bag, reduced to the presence of its two optional
capabilities plus the `typeof publish === "function"` check the executor
performs. -/
structure Deps where
  db : Bool := false
  eventPublisher : Bool := false
  publishIsFunction : Bool := true
deriving Repr

/-- The context threaded to every step (types.ts `FlowContext`). -/
structure Ctx where
  input : JVal
  state : Fields
  deps : Deps
  meta : FlowMeta

/-- Outcome of one handler invocation together with the wall-clock time it
took. -/
abbrev HandlerResult (α : Type) := Except JError α × Nat

/-- Retry configuration (types.ts `RetryOptions`). -/
structure RetryOptions where
  maxAttempts : Nat
  delayMs : Nat
  backoffMultiplier : Option Nat := none
  maxDelayMs : Option Nat := none
  shouldRetry : Option (JError → Bool) := none
  stepTimeout : Option Nat := none

/-- The step variants (types.ts `StepDefinition` union), each with its
handler.  A handler takes the attempt number (standing for its closure
state) and the context. -/
inductive StepVariant : Type where
  | validate (handler : Nat → Ctx → HandlerResult Unit)
  | step (handler : Nat → Ctx → HandlerResult JVal)
  | transaction (handler : Nat → Ctx → HandlerResult JVal)
  | event (channel : String) (handler : Nat → Ctx → HandlerResult JVal)
  | brk (breakCondition : Ctx → Bool) (breakReturnValue : Option (Ctx → JVal))

/-- A step: variant plus the common envelope. -/
structure StepDef where
  name : String
  variant : StepVariant
  condition : Option (Ctx → Bool) := none
  retryOptions : Option RetryOptions := none

/-- Whether `step.type === "event"`. -/
def isEventVariant (s : StepDef) : Bool :=
  match s.variant with
  | .event _ _ => true
  | _ => false

/-- Whether `step.type === "break"`. -/
def isBreakVariant (s : StepDef) : Bool :=
  match s.variant with
  | .brk _ _ => true
  | _ => false

/-- `errorHandling` options (types.ts `ErrorHandlingConfig`). -/
structure ErrorHandlingConfig where
  throwOnMissingEventPublisher : Option Bool := none
  throwOnMissingDatabase : Option Bool := none

/-- Execution options (types.ts `FlowExecutionOptions`). -/
structure ExecOptions where
  correlationId : Option String := none
  throwOnError : Option Bool := none
  timeout : Option Nat := none
  stepTimeout : Option Nat := none
  errorHandling : Option ErrorHandlingConfig := none

/-- One observable effect of a run: an observer notification, a retry
sleep, a handler invocation, or an event publish. -/
inductive TraceEv : Type where
  | flowStart (flowName : String)
  | flowComplete (flowName : String)
  | flowError (flowName : String)
  | flowBreak (flowName : String) (stepName : String)
  | stepStart (stepName : String)
  | stepComplete (stepName : String)
  | stepSkipped (stepName : String)
  | stepRetry (stepName : String) (attempt : Nat) (maxAttempts : Nat)
  | stepError (stepName : String)
  | waited (ms : Nat)
  | invoked (stepName : String) (attempt : Nat)
  | published (channel : String) (event : Fields)
deriving Repr

/-- Mutable engine state: the clock and the trace so far. -/
structure EngSt where
  now : Nat
  trace : List TraceEv

def emit (st : EngSt) (e : TraceEv) : EngSt :=
  { st with trace := st.trace ++ [e] }

def advance (st : EngSt) (ms : Nat) : EngSt :=
  { st with now := st.now + ms }

/-- `Number.MAX_SAFE_INTEGER`. -/
def maxSafeInteger : Nat := 2 ^ 53 - 1

namespace FlowExecutor

/-- The enriched event `{...event, correlationId:
context.meta.correlationId}`: the spread puts the engine's value last,
overriding any handler-supplied one (an absent run correlation identifier
is spread as `undefined`). -/
def eventWithMeta (event : JVal) (ctx : Ctx) : Fields :=
  setKey (match event with | .vobj fs => fs | _ => []) "correlationId"
    (match ctx.meta.correlationId with | some s => .vstr s | none => .vundef)

/-- `publishEvent`: enrich the event with the run's correlation identifier
and hand it to the publisher on the given channel. -/
def publishEvent (channel : String) (event : JVal) (ctx : Ctx) (st : EngSt) : EngSt :=
  emit st (.published channel (eventWithMeta event ctx))

/-- `executeEvent`: check the publisher capability, build the events, wrap
a single event into a list, and publish every entry that is truthy with a
truthy `eventType`.  Returns `undefined` (the step writes no state). -/
def executeEvent (stepName : String) (channel : String)
    (handler : Nat → Ctx → HandlerResult JVal) (ctx : Ctx)
    (options : ExecOptions) (attempt : Nat) (st : EngSt) :
    Except JError JVal × EngSt × Nat :=
  if !ctx.deps.eventPublisher then
    if (options.errorHandling.bind (·.throwOnMissingEventPublisher)).getD true then
      (.error (.flowExecutionError "No event publisher found in dependencies"
        ctx.meta.flowName (some stepName)), st, 0)
    else (.ok .vundef, st, 0)
  else if !ctx.deps.publishIsFunction then
    (.error (.flowExecutionError "Event publisher must have publish() method"
      ctx.meta.flowName (some stepName)), st, 0)
  else
    let hr := handler attempt ctx
    let st := emit st (.invoked stepName attempt)
    match hr.1 with
    | .error e => (.error e, st, hr.2)
    | .ok events =>
        if !truthy events then (.ok .vundef, st, hr.2)
        else
          let eventsArray := match events with | .varr xs => xs | v => [v]
          let st := eventsArray.foldl (fun s ev =>
            if truthy ev && truthy (getProp ev "eventType") then
              publishEvent channel ev ctx s
            else s) st
          (.ok .vundef, st, hr.2)

/-- `executeTransaction`: check the database capability, then run the
handler inside the collaborator's transaction scope (whose commit/rollback
behaviour is external) and return its result. -/
def executeTransaction (stepName : String)
    (handler : Nat → Ctx → HandlerResult JVal) (ctx : Ctx)
    (options : ExecOptions) (attempt : Nat) (st : EngSt) :
    Except JError JVal × EngSt × Nat :=
  if !ctx.deps.db then
    if (options.errorHandling.bind (·.throwOnMissingDatabase)).getD true then
      (.error (.flowExecutionError "No database found in dependencies for transaction"
        ctx.meta.flowName (some stepName)), st, 0)
    else (.ok .vundef, st, 0)
  else
    let hr := handler attempt ctx
    (hr.1, emit st (.invoked stepName attempt), hr.2)

def stepTimeoutMsg (stepName : String) (t : Nat) : String :=
  "Step \'" ++ stepName ++ "\' timed out after " ++ toString t ++ "ms"

/-- The dispatch on the step variant (the source's local `executeStep`
closure inside `executeSingleStep`): run the one handler invocation this
attempt makes and return its outcome, the engine state after its effects,
and its duration.  A validate handler's return value is discarded
(`return undefined`); a break step reaching this dispatch falls into the
`default` branch (`Unknown step type`). -/
def runVariant (step : StepDef) (ctx : Ctx) (options : ExecOptions)
    (attempt : Nat) (st : EngSt) : Except JError JVal × EngSt × Nat :=
  match step.variant with
  | .validate h =>
      let hr := h attempt ctx
      ((match hr.1 with
        | .ok _ => Except.ok JVal.vundef
        | .error e => .error e),
        emit st (.invoked step.name attempt), hr.2)
  | .step h =>
      let hr := h attempt ctx
      (hr.1, emit st (.invoked step.name attempt), hr.2)
  | .transaction h => executeTransaction step.name h ctx options attempt st
  | .event channel h => executeEvent step.name channel h ctx options attempt st
  | .brk _ _ =>
      (.error (.flowExecutionError "Unknown step type" ctx.meta.flowName none), st, 0)

/-- `executeSingleStep`: notify step start, dispatch on the variant, race
the dispatch against the step timeout (`step.retryOptions?.stepTimeout ??
options?.stepTimeout`; a lost race replaces the outcome with a timeout
error and unblocks at the deadline, while the abandoned dispatch's
publishes stay — the documented race limitation), then notify step
completion or step error. -/
def executeSingleStep (step : StepDef) (ctx : Ctx) (options : ExecOptions)
    (attempt : Nat) (st : EngSt) : Except JError JVal × EngSt :=
  let stepTimeout := match step.retryOptions.bind (fun r => r.stepTimeout) with
    | some t => some t
    | none => options.stepTimeout
  let st := emit st (.stepStart step.name)
  let d := runVariant step ctx options attempt st
  let raced : Except JError JVal × EngSt :=
    match stepTimeout with
    | some t =>
        if t ≠ 0 ∧ d.2.2 > t then
          (.error (.timeoutError (stepTimeoutMsg step.name t) ctx.meta.flowName
            (some step.name) (some t)), advance d.2.1 t)
        else (d.1, advance d.2.1 d.2.2)
    | none => (d.1, advance d.2.1 d.2.2)
  match raced.1 with
  | .ok v => (.ok v, emit raced.2 (.stepComplete step.name))
  | .error e => (.error e, emit raced.2 (.stepError step.name))

/-- The delay update after a retry sleep: only a truthy (nonzero)
`backoffMultiplier` triggers
`delay = min(delay * backoffMultiplier, maxDelayMs || MAX_SAFE_INTEGER)`. -/
def nextDelay (retryOptions : RetryOptions) (delay : Nat) : Nat :=
  match retryOptions.backoffMultiplier with
  | some m =>
      if m ≠ 0 then
        min (delay * m)
          (match retryOptions.maxDelayMs with
           | some md => if md ≠ 0 then md else maxSafeInteger
           | none => maxSafeInteger)
      else delay
  | none => delay

/-- The body of `executeWithRetry`'s `for (attempt = 1; attempt <=
maxAttempts; ...)` loop, with the remaining iteration count made explicit.
On failure: an attached `shouldRetry` returning false rethrows; a
`ValidationError` rethrows; the last attempt rethrows; otherwise notify the
retry, sleep the current delay and continue with the updated delay.  The
zero case is the loop exit (`throw lastError` with no attempt ever made,
reachable only when `maxAttempts` is 0). -/
def retryGo (step : StepDef) (ctx : Ctx) (options : ExecOptions)
    (retryOptions : RetryOptions) :
    Nat → Nat → Nat → EngSt → Except JError JVal × EngSt
  | 0, _, _, st => (.error (.genericError "undefined"), st)
  | remaining + 1, attempt, delay, st =>
      match executeSingleStep step ctx options attempt st with
      | (.ok v, st) => (.ok v, st)
      | (.error e, st) =>
          if (match retryOptions.shouldRetry with
              | some f => !f e
              | none => false) then (.error e, st)
          else if isValidationError e then (.error e, st)
          else if attempt = retryOptions.maxAttempts then (.error e, st)
          else
            let st := emit st (.stepRetry step.name attempt retryOptions.maxAttempts)
            let st := advance (emit st (.waited delay)) delay
            retryGo step ctx options retryOptions remaining (attempt + 1)
              (nextDelay retryOptions delay) st

/-- `executeWithRetry`. -/
def executeWithRetry (step : StepDef) (ctx : Ctx) (options : ExecOptions)
    (retryOptions : RetryOptions) (st : EngSt) : Except JError JVal × EngSt :=
  retryGo step ctx options retryOptions retryOptions.maxAttempts 1
    retryOptions.delayMs st

/-- `executeStep`: retry wrapper when the step carries a policy, single
attempt otherwise. -/
def executeStep (step : StepDef) (ctx : Ctx) (options : ExecOptions)
    (st : EngSt) : Except JError JVal × EngSt :=
  match step.retryOptions with
  | some ro => executeWithRetry step ctx options ro st
  | none => executeSingleStep step ctx options 1 st

def flowTimeoutMsg (elapsed t : Nat) : String :=
  "Flow execution timeout after " ++ toString elapsed ++ "ms (limit: "
    ++ toString t ++ "ms)"

/-- The flow-level deadline error raised by the pre-step check. -/
def flowTimeoutError (flowName : String) (stepName : String)
    (elapsed t : Nat) : JError :=
  .timeoutError (flowTimeoutMsg elapsed t) flowName (some stepName) (some t)

/-- Whether the pre-step check `if (options?.timeout) { elapsed >
options.timeout }` fires. -/
def flowTimeoutHit (options : ExecOptions) (startTime now : Nat) : Bool :=
  match options.timeout with
  | some t => t ≠ 0 && now - startTime > t
  | none => false

/-- The `currentStep` metadata update (`context.meta.currentStep =
step.name`). -/
def withCurrentStep (ctx : Ctx) (name : String) : Ctx :=
  { ctx with meta := { ctx.meta with currentStep := some name } }

/-- How processing one step leaves the loop: continue with the new
context, short-circuit with a break value, or fail with an error (the
context at the failure carries the state accumulated so far). -/
inductive LoopOut : Type where
  | next (ctx : Ctx) (st : EngSt)
  | broke (value : JVal) (st : EngSt)
  | failed (e : JError) (ctx : Ctx) (st : EngSt)

/-- The non-break tail of the loop body: dispatch through `executeStep`
and, on success, merge a truthy object result into state with a spread
(`{...context.state, ...result}`) — never for event steps. -/
def execAndMerge (step : StepDef) (ctx : Ctx) (options : ExecOptions)
    (st : EngSt) : LoopOut :=
  match executeStep step ctx options st with
  | (.error e, st) => .failed e ctx st
  | (.ok result, st) =>
      let ctx :=
        if truthy result && typeofObject result && !isEventVariant step then
          { ctx with state := spreadOnto ctx.state (assignFields result) }
        else ctx
      .next ctx st

/-- One iteration of `execute`'s step loop: the pre-step deadline check,
the `currentStep` metadata update, the run-condition check, the break
handling, and otherwise `execAndMerge`. -/
def stepOnce (flowName : String) (startTime : Nat) (options : ExecOptions)
    (step : StepDef) (ctx : Ctx) (st : EngSt) : LoopOut :=
  if flowTimeoutHit options startTime st.now then
    .failed (flowTimeoutError flowName step.name (st.now - startTime)
      (options.timeout.getD 0)) ctx st
  else
    let ctx := withCurrentStep ctx step.name
    if (match step.condition with
        | some c => !c ctx
        | none => false) then
      .next ctx (emit st (.stepSkipped step.name))
    else
      match step.variant with
      | .brk breakCondition breakReturnValue =>
          let st := emit st (.stepStart step.name)
          if breakCondition ctx then
            let breakResult := match breakReturnValue with
              | some f => f ctx
              | none => .vobj ctx.state
            .broke breakResult
              (emit (emit st (.stepComplete step.name)) (.flowBreak flowName step.name))
          else .next ctx (emit st (.stepComplete step.name))
      | _ => execAndMerge step ctx options st

/-- The `for (const step of config.steps)` loop. -/
def execLoop (flowName : String) (startTime : Nat) (options : ExecOptions) :
    List StepDef → Ctx → EngSt → LoopOut
  | [], ctx, st => .next ctx st
  | step :: rest, ctx, st =>
      match stepOnce flowName startTime options step ctx st with
      | .next ctx st => execLoop flowName startTime options rest ctx st
      | out => out

end FlowExecutor

/-- A built flow: name and steps (flow-builder.ts `FlowConfig`). -/
structure FlowConfig where
  name : String
  steps : List StepDef

/-- `FlowExecutionResult` (value, didBreak) or the raised error, plus the
final engine state. -/
structure ExecResult where
  result : Except JError (JVal × Bool)
  st : EngSt

/-- The context `execute` initialises a run with. -/
def initialCtx (config : FlowConfig) (input : JVal) (deps : Deps)
    (options : ExecOptions) (startTime : Nat) : Ctx :=
  { input := input, state := [], deps := deps,
    meta := { flowName := config.name, startedAt := startTime,
              correlationId := options.correlationId } }

/-- The engine state `execute` starts with: the clock at the start time
and the flow-start notification already emitted. -/
def initialSt (config : FlowConfig) (startTime : Nat) : EngSt :=
  emit { now := startTime, trace := [] } (.flowStart config.name)

/-- `FlowExecutor.execute`: notify flow start, run the loop; on normal
completion notify flow completion and return the state; on a break return
the break value flagged; on failure notify the flow error and either
return the partial state (`throwOnError === false`) or rethrow. -/
def FlowExecutor.execute (config : FlowConfig) (input : JVal) (deps : Deps)
    (options : ExecOptions) (startTime : Nat) : ExecResult :=
  let st : EngSt := initialSt config startTime
  match execLoop config.name startTime options config.steps
      (initialCtx config input deps options startTime) st with
  | .next ctx st => ⟨.ok (.vobj ctx.state, false), emit st (.flowComplete config.name)⟩
  | .broke v st => ⟨.ok (v, true), st⟩
  | .failed e ctx st =>
      let st := emit st (.flowError config.name)
      if options.throwOnError = some false then ⟨.ok (.vobj ctx.state, false), st⟩
      else ⟨.error e, st⟩

/-- The `execute` closure `FlowBuilder.build` returns: run the executor,
return a break value as-is (bypassing the mapper) and otherwise apply the
output mapper to the final state when one was set with `.map`. -/
def buildExecute (config : FlowConfig) (mapper : Option (JVal → Fields → JVal))
    (input : JVal) (deps : Deps) (options : ExecOptions) (startTime : Nat) :
    Except JError JVal × EngSt :=
  let r := FlowExecutor.execute config input deps options startTime
  match r.result with
  | .error e => (.error e, r.st)
  | .ok (v, didBreak) =>
      if didBreak then (.ok v, r.st)
      else
        match mapper with
        | some m => (.ok (m input (match v with | .vobj fs => fs | _ => [])), r.st)
        | none => (.ok v, r.st)

/-! ## Trace projections and event classes -/
/-- The sleeps of a run, in order. -/
def waitsOf (trace : List TraceEv) : List Nat :=
  trace.filterMap (fun e => match e with | .waited ms => some ms | _ => none)

/-- How many times a step's handler was invoked. -/
def invocationsOf (trace : List TraceEv) (name : String) : Nat :=
  trace.countP (fun e => match e with
    | .invoked n _ => decide (n = name)
    | _ => false)

/-- Events emitted inside the step loop (everything except the flow-level
start/complete/error notifications, which only `execute` itself emits). -/
def loopEv : TraceEv → Bool
  | .flowStart _ => false
  | .flowComplete _ => false
  | .flowError _ => false
  | _ => true

/-- Events emitted by a variant dispatch between step start and step
end: handler invocations and event publishes. -/
def innerEv : TraceEv → Bool
  | .invoked _ _ => true
  | .published _ _ => true
  | _ => false

/-- The per-step observer notifications of interest to ordering claims. -/
def obsEv : TraceEv → Bool
  | .stepStart _ => true
  | .stepComplete _ => true
  | .stepSkipped _ => true
  | _ => false

def obsProj (trace : List TraceEv) : List TraceEv :=
  trace.filter obsEv

def isStepRetryEv : TraceEv → Bool
  | .stepRetry _ _ _ => true
  | _ => false

def isFlowCompleteEv : TraceEv → Bool
  | .flowComplete _ => true
  | _ => false

def isFlowErrorEv : TraceEv → Bool
  | .flowError _ => true
  | _ => false

namespace FlowExecutor

/-- The engine state a loop outcome carries. -/
def outTrace : LoopOut → List TraceEv
  | .next _ st => st.trace
  | .broke _ st => st.trace
  | .failed _ _ st => st.trace

end FlowExecutor

/-- The waits the engine performs for `k` consecutive failed attempts:
the first is exactly `delayMs` (the caller starts the loop there), each
later one is the previous advanced by `nextDelay` — growth and cap only
when a nonzero `backoffMultiplier` is supplied, a zero `maxDelayMs`
meaning unbounded apart from `MAX_SAFE_INTEGER`. -/
def engineDelays (ro : RetryOptions) : Nat → Nat → List Nat
  | 0, _ => []
  | k + 1, d => d :: engineDelays ro k (FlowExecutor.nextDelay ro d)

/-- Modelled from the claim's words (not from the source): the delay
sequence `d₁ = delayMs`, `d_{i+1} = min(d_i * backoffMultiplier,
maxDelayMs)` with `backoffMultiplier` defaulting to 1 and `maxDelayMs` to
unbounded. -/
def claimedDelays (backoffMultiplier maxDelayMs : Option Nat) :
    Nat → Nat → List Nat
  | 0, _ => []
  | k + 1, d => d :: claimedDelays backoffMultiplier maxDelayMs k
      (match maxDelayMs with
       | some m => min (d * backoffMultiplier.getD 1) m
       | none => d * backoffMultiplier.getD 1)

def c1ro : RetryOptions :=
  { maxAttempts := 3, delayMs := 100, backoffMultiplier := some 2,
    maxDelayMs := some 500 }

def c1hfun : Nat → Ctx → HandlerResult JVal := fun a _ =>
  if a ≤ 2 then (.error (.genericError "Retry"), 1)
  else (.ok (.vobj [("success", .vbool true)]), 1)

def c1step : StepDef :=
  { name := "retryable", variant := .step c1hfun, retryOptions := some c1ro }

def c1ctx : Ctx :=
  { input := .vundef, state := [], deps := {},
    meta := { flowName := "backoff-test", startedAt := 0 } }

def c1xro : RetryOptions :=
  { maxAttempts := 3, delayMs := 500, maxDelayMs := some 200 }

def c1xstep : StepDef :=
  { name := "capped", variant := .step c1hfun, retryOptions := some c1xro }

def c2step : StepDef :=
  { name := "check",
    variant := .validate (fun _ _ => (.error (.genericError "boom"), 1)),
    retryOptions := some { maxAttempts := 5, delayMs := 10 } }

def c2cfg : FlowConfig :=
  { name := "no-retry-validation", steps := [c2step] }

def c8s1 : StepDef :=
  { name := "slow", variant := .step (fun _ _ => (.ok (.vobj [("a", .vnum 1)]), 50)) }

def c8s2 : StepDef :=
  { name := "late", variant := .step (fun _ _ => (.ok .vundef, 0)) }

def c8cfg : FlowConfig := ⟨"tf", [c8s1, c8s2]⟩

def c8opts : ExecOptions := { timeout := some 10 }

def c8ctx : Ctx :=
  { input := .vundef, state := [("a", .vnum 1)], deps := {},
    meta := { flowName := "tf", startedAt := 0, currentStep := some "slow" } }

def c8st : EngSt :=
  { now := 50,
    trace := [.flowStart "tf", .stepStart "slow", .invoked "slow" 1,
      .stepComplete "slow"] }

def c5s1 : StepDef :=
  { name := "first", variant := .step (fun _ _ => (.ok (.vobj [("a", .vnum 1)]), 0)) }

def c5f : StepDef :=
  { name := "boom",
    variant := .step (fun _ _ => (.error (.genericError "bad"), 0)),
    retryOptions := some { maxAttempts := 2, delayMs := 5 } }

def c5cfg : FlowConfig := ⟨"pf", [c5s1, c5f]⟩

def c5c : Ctx :=
  { input := .vundef, state := [("a", .vnum 1)], deps := {},
    meta := { flowName := "pf", startedAt := 0, currentStep := some "first" } }

def c5c' : Ctx :=
  { input := .vundef, state := [("a", .vnum 1)], deps := {},
    meta := { flowName := "pf", startedAt := 0, currentStep := some "boom" } }

def c5st : EngSt :=
  { now := 0,
    trace := [.flowStart "pf", .stepStart "first", .invoked "first" 1,
      .stepComplete "first"] }

def c5st' : EngSt :=
  { now := 5,
    trace := c5st.trace ++ [.stepStart "boom", .invoked "boom" 1,
      .stepError "boom", .stepRetry "boom" 1 2, .waited 5, .stepStart "boom",
      .invoked "boom" 2, .stepError "boom"] }

/-- The short-circuit payload: `step.breakReturnValue ?
step.breakReturnValue(context) : context.state`. -/
def breakPayload (brv : Option (Ctx → JVal)) (ctx : Ctx) : JVal :=
  match brv with
  | some f => f ctx
  | none => .vobj ctx.state

def c3s1 : StepDef :=
  { name := "check",
    variant := .step (fun _ _ => (.ok (.vobj [("verified", .vbool true)]), 0)) }

def c3post : StepDef :=
  { name := "never", variant := .step (fun _ _ => (.ok (.vobj [("ran", .vbool true)]), 0)) }

def c3cfg : FlowConfig :=
  ⟨"bf", [c3s1,
    ⟨"gate", .brk (fun ctx => truthy (getProp (.vobj ctx.state) "verified"))
      (some (fun _ => .vobj [("already", .vbool true)])), none, none⟩,
    c3post]⟩

def c3c : Ctx :=
  { input := .vundef, state := [("verified", .vbool true)], deps := {},
    meta := { flowName := "bf", startedAt := 0, currentStep := some "check" } }

def c3st : EngSt :=
  { now := 0,
    trace := [.flowStart "bf", .stepStart "check", .invoked "check" 1,
      .stepComplete "check"] }

def c3st3 : EngSt :=
  emit (emit (emit c3st (.stepStart "gate")) (.stepComplete "gate"))
    (.flowBreak "bf" "gate")

def c7cfg : FlowConfig :=
  ⟨"m", [⟨"s1", .step (fun _ _ => (.ok (.vobj [("a", .vnum 1)]), 0)), none, none⟩,
         ⟨"s2", .step (fun _ _ => (.ok (.vobj [("b", .vnum 2)]), 0)), none, none⟩]⟩

def c7w : StepDef :=
  ⟨"w", .step (fun _ _ => (.ok (.vobj [("b", .vnum 2)]), 0)), none, none⟩

def c7wc : Ctx :=
  { input := .vundef, state := [("a", .vnum 1)], deps := {},
    meta := { flowName := "m", startedAt := 0 } }

def c7wres : Ctx :=
  { input := .vundef, state := [("a", .vnum 1), ("b", .vnum 2)], deps := {},
    meta := { flowName := "m", startedAt := 0, currentStep := some "w" } }

def c10ctx : Ctx :=
  { input := .vundef, state := [], deps := { eventPublisher := true },
    meta := { flowName := "ev", startedAt := 0 } }

def c10fun : Nat → Ctx → HandlerResult JVal := fun _ _ =>
  (.ok (.varr [.vobj [("eventType", .vstr "done")], .vnull,
    .vobj [("x", .vnum 1)]]), 0)

def c9ctx : Ctx :=
  { input := .vundef, state := [], deps := { eventPublisher := true },
    meta := { flowName := "ev", startedAt := 0, correlationId := some "run-1" } }

def c9fun : Nat → Ctx → HandlerResult JVal := fun _ _ =>
  (.ok (.varr
    [.vobj [("eventType", .vstr "a"), ("correlationId", .vstr "handler")],
     .vobj [("eventType", .vstr "b")]]), 0)

def c6steps : List StepDef :=
  [⟨"one", .step (fun _ _ => (.ok (.vobj [("a", .vnum 1)]), 0)), none, none⟩,
   ⟨"two", .step (fun _ _ => (.ok (.vobj [("b", .vnum 2)]), 0)),
     some (fun ctx => truthy (getProp (.vobj ctx.state) "missing")), none⟩,
   ⟨"three", .step (fun _ _ => (.ok .vundef, 0)), none, none⟩]

def c6c : Ctx :=
  { input := .vundef, state := [("a", .vnum 1)], deps := {},
    meta := { flowName := "ord", startedAt := 0, currentStep := some "three" } }

def c6st : EngSt :=
  { now := 0,
    trace := [.flowStart "ord", .stepStart "one", .invoked "one" 1,
      .stepComplete "one", .stepSkipped "two", .stepStart "three",
      .invoked "three" 1, .stepComplete "three"] }

/-! ### Basic lemmas on field lists -/
theorem lookup_setKey_self (r : Fields) (k : String) (v : JVal) :
    lookupKey (setKey r k v) k = some v := by
  induction r with
  | nil => simp [setKey, lookupKey]
  | cons hd tl ih =>
      obtain ⟨k₀, w⟩ := hd
      by_cases h : k₀ = k <;> simp [setKey, lookupKey, h, ih]

theorem lookup_setKey_ne (r : Fields) {k k' : String} (v : JVal) (h : k' ≠ k) :
    lookupKey (setKey r k v) k' = lookupKey r k' := by
  induction r with
  | nil => simp [setKey, lookupKey, Ne.symm h]
  | cons hd tl ih =>
      obtain ⟨k₀, w⟩ := hd
      by_cases h0 : k₀ = k
      · subst h0
        simp [setKey, lookupKey, Ne.symm h]
      · by_cases h1 : k₀ = k' <;> simp [setKey, lookupKey, h0, h1, h, ih]

theorem hasKey_false_lookup {r : Fields} {k : String} (h : hasKey r k = false) :
    lookupKey r k = none := by
  unfold hasKey at h
  cases hl : lookupKey r k with
  | none => rfl
  | some v => rw [hl] at h; simp at h

theorem setKey_eq_append {r : Fields} {k : String} (v : JVal)
    (h : hasKey r k = false) : setKey r k v = r ++ [(k, v)] := by
  induction r with
  | nil => simp [setKey]
  | cons hd tl ih =>
      obtain ⟨k₀, w⟩ := hd
      by_cases h0 : k₀ = k
      · subst h0
        simp [hasKey, lookupKey] at h
      · have htl : hasKey tl k = false := by
          simpa [hasKey, lookupKey, h0] using h
        simp [setKey, h0, ih htl]

theorem lookup_append (a b : Fields) (k : String) :
    lookupKey (a ++ b) k =
      match lookupKey a k with
      | some v => some v
      | none => lookupKey b k := by
  induction a with
  | nil => simp [lookupKey]
  | cons hd tl ih =>
      obtain ⟨k₀, w⟩ := hd
      by_cases h0 : k₀ = k <;> simp [lookupKey, h0, ih]

/-! ### Depth bounds -/
theorem jdepth_lookup {r : Fields} {k : String} {v : JVal}
    (h : lookupKey r k = some v) : jdepth v ≤ jdepthF r := by
  induction r with
  | nil => simp [lookupKey] at h
  | cons hd tl ih =>
      obtain ⟨k₀, w⟩ := hd
      by_cases h0 : k₀ = k
      · simp [lookupKey, h0] at h
        subst h
        simp [jdepthF]
      · simp [lookupKey, h0] at h
        simp [jdepthF]
        exact Or.inr (ih h)

theorem jdepthF_setKey (r : Fields) (k : String) (v : JVal) :
    jdepthF (setKey r k v) ≤ max (jdepthF r) (jdepth v) := by
  induction r with
  | nil => simp [setKey, jdepthF]
  | cons hd tl ih =>
      obtain ⟨k₀, w⟩ := hd
      by_cases h0 : k₀ = k
      · simp [setKey, h0, jdepthF]
        omega
      · simp [setKey, h0, jdepthF]
        omega

theorem dmKey_eq_setKey (fuel : Nat) (r : Fields) (k : String) (v : JVal) :
    dmKey fuel r k v = setKey r k (dmKeyVal fuel (lookupKey r k) v) := by
  cases v <;> cases fuel <;>
    simp only [dmKey, dmKeyVal] <;>
    cases hl : lookupKey r k <;>
    try rfl
  all_goals rename_i w; cases w <;> rfl

mutual

theorem dmKeyVal_depth (fuel : Nat) (old : Option JVal) (v : JVal) :
    jdepth (dmKeyVal fuel old v) ≤ max (odepth old) (jdepth v) := by
  match v with
  | .varr xs =>
      simp only [dmKeyVal]
      cases old with
      | none => simp [jdepth]
      | some w => cases w <;> simp [jdepth]
  | .vundef | .vnull | .vbool _ | .vnum _ | .vstr _ | .vspecial _ =>
      simp [dmKeyVal, jdepth]
  | .vobj nv =>
      match fuel with
      | 0 => simp [dmKeyVal]
      | fuel' + 1 =>
          match old with
          | some (.vobj ev) =>
              have h1 := dmFields_depth fuel' [] ev
              have h2 := dmFields_depth fuel' (dmFields fuel' [] ev) nv
              simp only [dmKeyVal, odepth, jdepth, jdepthF] at h1 h2 ⊢
              omega
          | some .vundef | some .vnull | some (.vbool _) | some (.vnum _)
          | some (.vstr _) | some (.varr _) | some (.vspecial _) | none =>
              have h1 := dmFields_depth fuel' [] nv
              simp only [dmKeyVal, odepth, jdepth, jdepthF] at h1 ⊢
              omega
termination_by (fuel, 0)

theorem dmFields_depth (fuel : Nat) (r : Fields) (o : Fields) :
    jdepthF (dmFields fuel r o) ≤ max (jdepthF r) (jdepthF o) := by
  match o with
  | [] => simp [dmFields, jdepthF]
  | (k, v) :: rest =>
      have h0 : jdepthF (dmKey fuel r k v) ≤ max (jdepthF r) (jdepth v) := by
        rw [dmKey_eq_setKey]
        refine le_trans (jdepthF_setKey r k _) ?_
        have h1 := dmKeyVal_depth fuel (lookupKey r k) v
        have h2 : odepth (lookupKey r k) ≤ jdepthF r := by
          cases hl : lookupKey r k with
          | none => simp [odepth]
          | some w => simpa [odepth] using jdepth_lookup hl
        omega
      have h2 := dmFields_depth fuel (dmKey fuel r k v) rest
      simp only [dmFields, jdepthF] at h2 ⊢
      omega
termination_by (fuel, o.length + 1)

end

/-! ### Fuel irrelevance: any fuel at least the object depth computes the
same merge. -/
mutual

theorem dmKeyVal_congr (f₁ f₂ : Nat) (old : Option JVal) (v : JVal)
    (ho₁ : odepth old ≤ f₁) (hv₁ : jdepth v ≤ f₁)
    (ho₂ : odepth old ≤ f₂) (hv₂ : jdepth v ≤ f₂) :
    dmKeyVal f₁ old v = dmKeyVal f₂ old v := by
  match v with
  | .varr xs => simp only [dmKeyVal]
  | .vundef | .vnull | .vbool _ | .vnum _ | .vstr _ | .vspecial _ =>
      simp only [dmKeyVal]
  | .vobj nv =>
      have hnv₁ : jdepthF nv + 1 ≤ f₁ := by simp [jdepth] at hv₁; omega
      have hnv₂ : jdepthF nv + 1 ≤ f₂ := by simp [jdepth] at hv₂; omega
      obtain ⟨f₁', rfl⟩ : ∃ g, f₁ = g + 1 := ⟨f₁ - 1, by omega⟩
      obtain ⟨f₂', rfl⟩ : ∃ g, f₂ = g + 1 := ⟨f₂ - 1, by omega⟩
      match old with
          | some (.vobj ev) =>
              have hev : jdepthF ev + 1 ≤ f₁' + 1 := by
                simp [odepth, jdepth] at ho₁; omega
              have hev₂ : jdepthF ev + 1 ≤ f₂' + 1 := by
                simp [odepth, jdepth] at ho₂; omega
              have e1 : dmFields f₁' [] ev = dmFields f₂' [] ev :=
                dmFields_congr f₁' f₂' [] ev (by simp [jdepthF]) (by omega)
                  (by simp [jdepthF]) (by omega)
              have hd1 : jdepthF (dmFields f₂' [] ev) ≤ jdepthF ev := by
                have := dmFields_depth f₂' [] ev
                simpa [jdepthF] using this
              have e2 : dmFields f₁' (dmFields f₂' [] ev) nv
                  = dmFields f₂' (dmFields f₂' [] ev) nv :=
                dmFields_congr f₁' f₂' (dmFields f₂' [] ev) nv
                  (by omega) (by omega) (by omega) (by omega)
              show JVal.vobj (dmFields f₁' (dmFields f₁' [] ev) nv)
                  = JVal.vobj (dmFields f₂' (dmFields f₂' [] ev) nv)
              rw [e1, e2]
          | some .vundef | some .vnull | some (.vbool _) | some (.vnum _)
          | some (.vstr _) | some (.varr _) | some (.vspecial _) | none =>
              have e1 : dmFields f₁' [] nv = dmFields f₂' [] nv :=
                dmFields_congr f₁' f₂' [] nv (by simp [jdepthF]) (by omega)
                  (by simp [jdepthF]) (by omega)
              show JVal.vobj (dmFields f₁' [] nv) = JVal.vobj (dmFields f₂' [] nv)
              rw [e1]
termination_by (f₁, 0)

theorem dmFields_congr (f₁ f₂ : Nat) (r : Fields) (o : Fields)
    (hr₁ : jdepthF r ≤ f₁) (ho₁ : jdepthF o ≤ f₁)
    (hr₂ : jdepthF r ≤ f₂) (ho₂ : jdepthF o ≤ f₂) :
    dmFields f₁ r o = dmFields f₂ r o := by
  match o with
  | [] => simp only [dmFields]
  | (k, v) :: rest =>
      have hv₁ : jdepth v ≤ f₁ := by simp [jdepthF] at ho₁; omega
      have hv₂ : jdepth v ≤ f₂ := by simp [jdepthF] at ho₂; omega
      have hrest₁ : jdepthF rest ≤ f₁ := by simp [jdepthF] at ho₁; omega
      have hrest₂ : jdepthF rest ≤ f₂ := by simp [jdepthF] at ho₂; omega
      have hold : odepth (lookupKey r k) ≤ jdepthF r := by
        cases hl : lookupKey r k with
        | none => simp [odepth]
        | some w => simpa [odepth] using jdepth_lookup hl
      have e1 : dmKey f₁ r k v = dmKey f₂ r k v := by
        rw [dmKey_eq_setKey, dmKey_eq_setKey]
        rw [dmKeyVal_congr f₁ f₂ (lookupKey r k) v
          (by omega) hv₁ (by omega) hv₂]
      have hd : jdepthF (dmKey f₂ r k v) ≤ max (jdepthF r) (jdepth v) := by
        rw [dmKey_eq_setKey]
        refine le_trans (jdepthF_setKey r k _) ?_
        have := dmKeyVal_depth f₂ (lookupKey r k) v
        omega
      have e2 : dmFields f₁ (dmKey f₂ r k v) rest = dmFields f₂ (dmKey f₂ r k v) rest :=
        dmFields_congr f₁ f₂ (dmKey f₂ r k v) rest
          (by omega) hrest₁ (by omega) hrest₂
      simp only [dmFields]
      rw [e1, e2]
termination_by (f₁, o.length + 1)

end

/-! ### Normalisation: merging a well-formed object into a key-disjoint
accumulator just appends its fields. -/
theorem hasKey_cons (k₀ : String) (v : JVal) (rest : Fields) (k : String) :
    hasKey ((k₀, v) :: rest) k = ((k₀ = k) || hasKey rest k) := by
  by_cases h : k₀ = k <;> simp [hasKey, lookupKey, h]

theorem hasKey_append (a b : Fields) (k : String) :
    hasKey (a ++ b) k = (hasKey a k || hasKey b k) := by
  simp only [hasKey, lookup_append]
  cases lookupKey a k <;> simp

theorem wf_lookup {fs : Fields} {k : String} {v : JVal}
    (hwf : wfF fs = true) (h : lookupKey fs k = some v) : wfV v = true := by
  induction fs with
  | nil => simp [lookupKey] at h
  | cons hd tl ih =>
      obtain ⟨k₀, w⟩ := hd
      simp only [wfF, Bool.and_eq_true] at hwf
      by_cases h0 : k₀ = k
      · simp [lookupKey, h0] at h
        subst h
        exact hwf.1.2
      · simp [lookupKey, h0] at h
        exact ih hwf.2 h

theorem wfF_nodupKeys {fs : Fields} (hwf : wfF fs = true) : nodupKeys fs = true := by
  induction fs with
  | nil => rfl
  | cons hd tl ih =>
      obtain ⟨k₀, w⟩ := hd
      simp only [wfF, Bool.and_eq_true] at hwf
      simp [nodupKeys, hwf.1.1, ih hwf.2]

theorem dmFields_norm (fuel : Nat) : ∀ (fs acc : Fields),
    jdepthF fs ≤ fuel → wfF fs = true →
    (∀ k, hasKey fs k = true → hasKey acc k = false) →
    dmFields fuel acc fs = acc ++ fs := by
  induction fuel using Nat.strong_induction_on with
  | _ fuel IH =>
    intro fs
    induction fs with
    | nil => intro acc _ _ _; simp [dmFields]
    | cons hd rest ihf =>
        obtain ⟨k, v⟩ := hd
        intro acc hdep hwf hdisj
        simp only [wfF, Bool.and_eq_true] at hwf
        obtain ⟨⟨hkrest, hwv⟩, hwrest⟩ := hwf
        have hkacc : hasKey acc k = false := by
          refine hdisj k ?_
          simp [hasKey_cons]
        have hacc_none : lookupKey acc k = none := hasKey_false_lookup hkacc
        have hdv : jdepth v ≤ fuel := by simp [jdepthF] at hdep; omega
        have hdrest : jdepthF rest ≤ fuel := by simp [jdepthF] at hdep; omega
        have hkey : dmKey fuel acc k v = acc ++ [(k, v)] := by
          rw [dmKey_eq_setKey, hacc_none]
          have hval : dmKeyVal fuel none v = v := by
            match v with
            | .varr xs => rfl
            | .vundef | .vnull | .vbool _ | .vnum _ | .vstr _ | .vspecial _ => rfl
            | .vobj nv =>
                have : jdepthF nv + 1 ≤ fuel := by simp [jdepth] at hdv; omega
                obtain ⟨g, rfl⟩ : ∃ g, fuel = g + 1 := ⟨fuel - 1, by omega⟩
                show JVal.vobj (dmFields g [] nv) = JVal.vobj nv
                rw [IH g (by omega) nv [] (by omega) hwv (by intro k' _; rfl)]
                simp
          rw [hval]
          exact setKey_eq_append v hkacc
        have hdisj' : ∀ k', hasKey rest k' = true → hasKey (acc ++ [(k, v)]) k' = false := by
          intro k' hk'
          have hne : k' ≠ k := by
            intro he
            rw [he] at hk'
            rw [hk'] at hkrest
            exact absurd hkrest (by simp)
          have h1 : hasKey acc k' = false := by
            refine hdisj k' ?_
            simp [hasKey_cons, hk']
          rw [hasKey_append, h1, hasKey_cons]
          simp [hasKey, lookupKey, Ne.symm hne]
        simp only [dmFields, hkey]
        rw [ihf (acc ++ [(k, v)]) hdrest hwrest hdisj']
        simp

/-- Merging a well-formed value into an absent slot leaves it unchanged. -/
theorem dmKeyVal_none {fuel : Nat} {v : JVal}
    (hd : jdepth v ≤ fuel) (hwf : wfV v = true) :
    dmKeyVal fuel none v = v := by
  match v with
  | .varr xs => rfl
  | .vundef | .vnull | .vbool _ | .vnum _ | .vstr _ | .vspecial _ => rfl
  | .vobj nv =>
      have : jdepthF nv + 1 ≤ fuel := by simp [jdepth] at hd; omega
      obtain ⟨g, rfl⟩ : ∃ g, fuel = g + 1 := ⟨fuel - 1, by omega⟩
      show JVal.vobj (dmFields g [] nv) = JVal.vobj nv
      rw [dmFields_norm g nv [] (by omega) hwf (by intro k' _; rfl)]
      simp

/-! ### Per-key characterisation of the merge loop -/
theorem lookup_dmKey_self (fuel : Nat) (r : Fields) (k : String) (v : JVal) :
    lookupKey (dmKey fuel r k v) k = some (dmKeyVal fuel (lookupKey r k) v) := by
  rw [dmKey_eq_setKey]
  exact lookup_setKey_self r k _

theorem lookup_dmKey_ne (fuel : Nat) (r : Fields) (k : String) (v : JVal)
    {k' : String} (h : k' ≠ k) :
    lookupKey (dmKey fuel r k v) k' = lookupKey r k' := by
  rw [dmKey_eq_setKey]
  exact lookup_setKey_ne r _ h

theorem lookup_dmFields_not_mem (fuel : Nat) (o : Fields) :
    ∀ (r : Fields) (k : String), hasKey o k = false →
    lookupKey (dmFields fuel r o) k = lookupKey r k := by
  induction o with
  | nil => intro r k _; simp [dmFields]
  | cons hd rest ih =>
      obtain ⟨k₀, v₀⟩ := hd
      intro r k h
      rw [hasKey_cons] at h
      simp only [Bool.or_eq_false_iff] at h
      have hne : k ≠ k₀ := by
        intro he
        rw [he] at h
        simp at h
      simp only [dmFields]
      rw [ih (dmKey fuel r k₀ v₀) k h.2, lookup_dmKey_ne fuel r k₀ v₀ hne]

theorem lookup_dmFields (fuel : Nat) (o : Fields) :
    ∀ (r : Fields) (k : String), nodupKeys o = true →
    lookupKey (dmFields fuel r o) k =
      match lookupKey o k with
      | some v => some (dmKeyVal fuel (lookupKey r k) v)
      | none => lookupKey r k := by
  induction o with
  | nil => intro r k _; simp [dmFields, lookupKey]
  | cons hd rest ih =>
      obtain ⟨k₀, v₀⟩ := hd
      intro r k hnd
      simp only [nodupKeys, Bool.and_eq_true] at hnd
      by_cases h0 : k₀ = k
      · have h1 : hasKey rest k₀ = false := by simpa using hnd.1
        have hr : hasKey rest k = false := by rw [← h0]; exact h1
        simp only [dmFields, lookupKey, if_pos h0]
        rw [lookup_dmFields_not_mem fuel rest (dmKey fuel r k₀ v₀) k hr, h0,
          lookup_dmKey_self]
      · simp only [dmFields, lookupKey, if_neg h0]
        rw [ih (dmKey fuel r k₀ v₀) k hnd.2,
          lookup_dmKey_ne fuel r k₀ v₀ (Ne.symm h0)]

/-! ### The conflict scan -/
theorem scanKeys_inr {seen : List String} {ks : List String} {key : String}
    (h : scanKeys seen ks = .inr key) :
    2 ≤ seen.count key + ks.count key := by
  induction ks generalizing seen with
  | nil => simp [scanKeys] at h
  | cons k rest ih =>
      simp only [scanKeys] at h
      by_cases hc : seen.contains k
      · rw [if_pos hc] at h
        cases h
        have h1 : 1 ≤ seen.count key := List.one_le_count_iff.mpr (by
          simpa using hc)
        have h2 : (key :: rest).count key = rest.count key + 1 := by
          simp [List.count_cons]
        omega
      · rw [if_neg hc] at h
        have := ih h
        simp only [List.count_cons] at this ⊢
        by_cases he : k = key <;> simp [he] at this ⊢ <;> omega

theorem scanKeys_inl_eq {seen ks s : List String}
    (h : scanKeys seen ks = .inl s) : s = ks.reverse ++ seen := by
  induction ks generalizing seen with
  | nil => simp [scanKeys] at h; simp [h]
  | cons k rest ih =>
      simp only [scanKeys] at h
      by_cases hc : seen.contains k
      · rw [if_pos hc] at h; cases h
      · rw [if_neg hc] at h
        rw [ih h]
        simp

theorem scanKeys_inl_nodup {seen ks s : List String}
    (hnd : seen.Nodup) (h : scanKeys seen ks = .inl s) : s.Nodup := by
  induction ks generalizing seen with
  | nil =>
      simp [scanKeys] at h
      rw [← h]
      exact hnd
  | cons k rest ih =>
      simp only [scanKeys] at h
      by_cases hc : seen.contains k
      · rw [if_pos hc] at h; cases h
      · rw [if_neg hc] at h
        refine ih ?_ h
        have hk : k ∉ seen := by simpa using hc
        exact List.nodup_cons.mpr ⟨hk, hnd⟩

theorem scanKeys_complete {seen ks : List String}
    (h : ∀ key, seen.count key + ks.count key ≤ 1) :
    scanKeys seen ks = .inl (ks.reverse ++ seen) := by
  induction ks generalizing seen with
  | nil => simp [scanKeys]
  | cons k rest ih =>
      have hc : seen.contains k = false := by
        cases hcc : seen.contains k
        · rfl
        · have h1 : 1 ≤ seen.count k := List.one_le_count_iff.mpr (by simpa using hcc)
          have h2 := h k
          simp [List.count_cons] at h2
          omega
      simp only [scanKeys, hc, Bool.false_eq_true, if_false]
      rw [ih (by
        intro key
        have := h key
        simp only [List.count_cons] at this ⊢
        by_cases he : k = key <;> simp [he] at this ⊢ <;> omega)]
      simp

theorem conflictScan_some {seen : List String} {rs : List JVal} {key : String}
    (h : conflictScan seen rs = some key) :
    2 ≤ seen.count key + (keyList rs).count key := by
  induction rs generalizing seen with
  | nil => simp [conflictScan] at h
  | cons r rest ih =>
      simp only [conflictScan] at h
      have hkl : keyList (r :: rest) = enumKeysOf r ++ keyList rest := by
        simp [keyList]
      by_cases hq : truthy r && typeofObject r
      · rw [if_pos hq] at h
        have henum : enumKeysOf r = forInKeys r := by simp [enumKeysOf, hq]
        cases hs : scanKeys seen (forInKeys r) with
        | inl seen' =>
            rw [hs] at h
            have := ih h
            have heq := scanKeys_inl_eq hs
            subst heq
            rw [hkl, henum]
            simp only [List.count_append, List.count_reverse] at this ⊢
            omega
        | inr key' =>
            rw [hs] at h
            cases h
            have := scanKeys_inr hs
            rw [hkl, henum]
            simp only [List.count_append]
            omega
      · rw [if_neg hq] at h
        have := ih h
        have henum : enumKeysOf r = [] := by simp [enumKeysOf, hq]
        rw [hkl, henum]
        simpa using this

theorem conflictScan_none {seen : List String} {rs : List JVal}
    (hnd : seen.Nodup) (h : conflictScan seen rs = none) :
    ∀ key, seen.count key + (keyList rs).count key ≤ 1 := by
  induction rs generalizing seen with
  | nil =>
      intro key
      have := List.nodup_iff_count_le_one.mp hnd key
      simp [keyList]
      omega
  | cons r rest ih =>
      intro key
      simp only [conflictScan] at h
      have hkl : keyList (r :: rest) = enumKeysOf r ++ keyList rest := by
        simp [keyList]
      by_cases hq : truthy r && typeofObject r
      · rw [if_pos hq] at h
        have henum : enumKeysOf r = forInKeys r := by simp [enumKeysOf, hq]
        cases hs : scanKeys seen (forInKeys r) with
        | inl seen' =>
            rw [hs] at h
            have hnd' : seen'.Nodup := scanKeys_inl_nodup hnd hs
            have heq := scanKeys_inl_eq hs
            subst heq
            have := ih hnd' h key
            rw [hkl, henum]
            simp only [List.count_append, List.count_reverse] at this ⊢
            omega
        | inr key' => rw [hs] at h; cases h
      · rw [if_neg hq] at h
        have := ih hnd h key
        have henum : enumKeysOf r = [] := by simp [enumKeysOf, hq]
        rw [hkl, henum]
        simpa using this

theorem conflictScan_complete {seen : List String} {rs : List JVal}
    (h : ∀ key, seen.count key + (keyList rs).count key ≤ 1) :
    conflictScan seen rs = none := by
  induction rs generalizing seen with
  | nil => rfl
  | cons r rest ih =>
      have hkl : keyList (r :: rest) = enumKeysOf r ++ keyList rest := by
        simp [keyList]
      simp only [conflictScan]
      by_cases hq : truthy r && typeofObject r
      · rw [if_pos hq]
        have henum : enumKeysOf r = forInKeys r := by simp [enumKeysOf, hq]
        have hs : scanKeys seen (forInKeys r)
            = .inl ((forInKeys r).reverse ++ seen) := by
          refine scanKeys_complete ?_
          intro key
          have := h key
          rw [hkl, henum] at this
          simp only [List.count_append] at this
          omega
        rw [hs]
        refine ih ?_
        intro key
        have := h key
        rw [hkl, henum] at this
        simp only [List.count_append, List.count_reverse] at this ⊢
        omega
      · rw [if_neg hq]
        refine ih ?_
        intro key
        have := h key
        have henum : enumKeysOf r = [] := by simp [enumKeysOf, hq]
        rw [hkl, henum] at this
        simpa using this

theorem lookup_spreadOnto (fs : Fields) :
    ∀ (acc : Fields) (k : String), nodupKeys fs = true →
    lookupKey (spreadOnto acc fs) k =
      match lookupKey fs k with
      | some v => some v
      | none => lookupKey acc k := by
  induction fs with
  | nil => intro acc k _; simp [spreadOnto, lookupKey]
  | cons hd rest ih =>
      obtain ⟨k₀, v₀⟩ := hd
      intro acc k hnd
      simp only [nodupKeys, Bool.and_eq_true] at hnd
      have hsp : spreadOnto acc ((k₀, v₀) :: rest)
          = spreadOnto (setKey acc k₀ v₀) rest := rfl
      rw [hsp, ih (setKey acc k₀ v₀) k hnd.2]
      by_cases h0 : k₀ = k
      · have h1 : hasKey rest k₀ = false := by simpa using hnd.1
        have hr : lookupKey rest k = none := by
          rw [← h0]; exact hasKey_false_lookup h1
        rw [hr]
        simp only [lookupKey, if_pos h0]
        rw [h0, lookup_setKey_self]
      · simp only [lookupKey, if_neg h0]
        cases lookupKey rest k with
        | some v => rfl
        | none => exact lookup_setKey_ne acc v₀ (Ne.symm h0)

theorem lookup_assignFold (rs : List JVal) :
    ∀ (acc : Fields) (k : String),
    (∀ r ∈ rs, nodupKeys (assignFields r) = true) →
    lookupKey (rs.foldl (fun a r => spreadOnto a (assignFields r)) acc) k =
      match lastLookup rs k with
      | some v => some v
      | none => lookupKey acc k := by
  induction rs with
  | nil => intro acc k _; simp [lastLookup]
  | cons r rest ih =>
      intro acc k hnd
      simp only [List.foldl_cons]
      rw [ih (spreadOnto acc (assignFields r)) k (fun x hx => hnd x (by simp [hx]))]
      simp only [lastLookup]
      cases lastLookup rest k with
      | some v => rfl
      | none => exact lookup_spreadOnto (assignFields r) acc k (hnd r (by simp))

theorem lookup_objectAssign {rs : List JVal}
    (hnd : ∀ r ∈ rs, nodupKeys (assignFields r) = true) (k : String) :
    lookupKey (objectAssign rs) k = lastLookup rs k := by
  unfold objectAssign
  rw [lookup_assignFold rs [] k hnd]
  cases lastLookup rs k <;> simp [lookupKey]

/-! ### Key membership and counting -/
theorem hasKey_eq_mem (fs : Fields) (k : String) :
    hasKey fs k = true ↔ k ∈ fs.map Prod.fst := by
  induction fs with
  | nil => simp [hasKey, lookupKey]
  | cons hd rest ih =>
      obtain ⟨k₀, v₀⟩ := hd
      rw [hasKey_cons]
      simp only [List.map_cons, List.mem_cons, Bool.or_eq_true, ih,
        decide_eq_true_eq]
      constructor
      · rintro (h | h)
        · exact Or.inl h.symm
        · exact Or.inr h
      · rintro (h | h)
        · exact Or.inl h.symm
        · exact Or.inr h

theorem nodupKeys_nodup {fs : Fields} (h : nodupKeys fs = true) :
    (fs.map Prod.fst).Nodup := by
  induction fs with
  | nil => simp
  | cons hd rest ih =>
      obtain ⟨k₀, v₀⟩ := hd
      simp only [nodupKeys, Bool.and_eq_true] at h
      have h1 : hasKey rest k₀ = false := by simpa using h.1
      have h2 : k₀ ∉ rest.map Prod.fst := by
        intro hm
        rw [← hasKey_eq_mem] at hm
        rw [hm] at h1
        cases h1
      simp only [List.map_cons]
      exact List.nodup_cons.mpr ⟨h2, ih h.2⟩

theorem keyList_count {rs : List JVal} (key : String)
    (h : ∀ r ∈ rs, (enumKeysOf r).Nodup) :
    (keyList rs).count key = rs.countP (fun r => (enumKeysOf r).contains key) := by
  induction rs with
  | nil => simp [keyList]
  | cons r rest ih =>
      have hkl : keyList (r :: rest) = enumKeysOf r ++ keyList rest := by
        simp [keyList]
      rw [hkl]
      rw [List.count_append, List.countP_cons,
        ih (fun x hx => h x (by simp [hx]))]
      have hr := h r (by simp)
      by_cases hm : key ∈ enumKeysOf r
      · have hc1 : (enumKeysOf r).count key = 1 :=
          le_antisymm (List.nodup_iff_count_le_one.mp hr key)
            (List.one_le_count_iff.mpr hm)
        have hc2 : (enumKeysOf r).contains key = true := by simpa using hm
        rw [hc1, hc2]
        simp [Nat.add_comm]
      · have hc1 : (enumKeysOf r).count key = 0 := by
          simpa using List.count_eq_zero.mpr hm
        have hc2 : (enumKeysOf r).contains key = false := by simpa using hm
        rw [hc1, hc2]
        simp

/-! ### The deep strategy on two objects, per key -/
theorem deepMerge_lookup_two_fuel (F : Nat) (fa fb : Fields) (k : String)
    (hwa : wfF fa = true) (hwb : wfF fb = true)
    (hFa : jdepthF fa + 1 ≤ F) (hFb : jdepthF fb + 1 ≤ F) :
    lookupKey (dmFields F (dmFields F [] fa) fb) k =
      match lookupKey fa k, lookupKey fb k with
      | old, none => old
      | some (.varr xs), some (.varr ys) => some (.varr (xs ++ ys))
      | some (.vobj ea), some (.vobj eb) =>
          some (.vobj (deepMerge [.vobj ea, .vobj eb]))
      | _, some w => some w := by
  rw [dmFields_norm F fa [] (by omega) hwa (fun k' _ => rfl)]
  simp only [List.nil_append]
  rw [lookup_dmFields F fb fa k (wfF_nodupKeys hwb)]
  cases hb : lookupKey fb k with
  | none =>
      cases ha : lookupKey fa k with
      | none => rfl
      | some w => cases w <;> rfl
  | some v =>
      have hdvb : jdepth v ≤ jdepthF fb := jdepth_lookup hb
      match v with
      | .varr ys =>
          cases ha : lookupKey fa k with
          | none => rfl
          | some w => cases w <;> rfl
      | .vundef | .vnull | .vbool _ | .vnum _ | .vstr _ | .vspecial _ =>
          cases ha : lookupKey fa k with
          | none => rfl
          | some w => cases w <;> rfl
      | .vobj eb =>
          have hwfb : wfF eb = true := by
            have := wf_lookup hwb hb
            simpa [wfV] using this
          have hdeb : jdepthF eb + 1 ≤ jdepthF fb := by
            simp [jdepth] at hdvb
            omega
          obtain ⟨F', rfl⟩ : ∃ g, F = g + 1 := ⟨F - 1, by omega⟩
          cases ha : lookupKey fa k with
          | none =>
              show some (JVal.vobj (dmFields F' [] eb)) = some (JVal.vobj eb)
              rw [dmFields_norm F' eb [] (by omega) hwfb (fun k' _ => rfl)]
              simp
          | some w =>
              have hdw : jdepth w ≤ jdepthF fa := jdepth_lookup ha
              match w with
              | .vobj ea =>
                  have hwfa : wfF ea = true := by
                    have := wf_lookup hwa ha
                    simpa [wfV] using this
                  have hdea : jdepthF ea + 1 ≤ jdepthF fa := by
                    simp [jdepth] at hdw
                    omega
                  show some (JVal.vobj (dmFields F' (dmFields F' [] ea) eb))
                      = some (JVal.vobj (deepMerge [JVal.vobj ea, JVal.vobj eb]))
                  have hG : deepMerge [JVal.vobj ea, JVal.vobj eb]
                      = dmFields (jdepthList [JVal.vobj ea, JVal.vobj eb])
                          (dmFields (jdepthList [JVal.vobj ea, JVal.vobj eb]) [] ea) eb := rfl
                  have hGa : jdepthF ea + 1 ≤ jdepthList [JVal.vobj ea, JVal.vobj eb] := by
                    simp [jdepthList, jdepth]
                    omega
                  have hGb : jdepthF eb + 1 ≤ jdepthList [JVal.vobj ea, JVal.vobj eb] := by
                    simp [jdepthList, jdepth]
                    omega
                  rw [hG,
                    dmFields_norm (jdepthList [JVal.vobj ea, JVal.vobj eb]) ea []
                      (by omega) hwfa (fun k' _ => rfl),
                    dmFields_norm F' ea [] (by omega) hwfa (fun k' _ => rfl)]
                  simp only [List.nil_append]
                  rw [dmFields_congr F' (jdepthList [JVal.vobj ea, JVal.vobj eb]) ea eb
                    (by omega) (by omega) (by omega) (by omega)]
              | .varr xs | .vundef | .vnull | .vbool _ | .vnum _ | .vstr _ | .vspecial _ =>
                  show some (JVal.vobj (dmFields F' [] eb)) = some (JVal.vobj eb)
                  rw [dmFields_norm F' eb [] (by omega) hwfb (fun k' _ => rfl)]
                  simp

theorem deepMerge_lookup_two (fa fb : Fields) (k : String)
    (hwa : wfF fa = true) (hwb : wfF fb = true) :
    lookupKey (deepMerge [.vobj fa, .vobj fb]) k =
      match lookupKey fa k, lookupKey fb k with
      | old, none => old
      | some (.varr xs), some (.varr ys) => some (.varr (xs ++ ys))
      | some (.vobj ea), some (.vobj eb) =>
          some (.vobj (deepMerge [.vobj ea, .vobj eb]))
      | _, some w => some w := by
  have hF : deepMerge [JVal.vobj fa, JVal.vobj fb]
      = dmFields (jdepthList [JVal.vobj fa, JVal.vobj fb])
          (dmFields (jdepthList [JVal.vobj fa, JVal.vobj fb]) [] fa) fb := rfl
  rw [hF]
  refine deepMerge_lookup_two_fuel _ fa fb k hwa hwb ?_ ?_ <;>
    simp [jdepthList, jdepth] <;> omega

/-- C4: the merge module's three strategies.  Shallow: a later partial's
keys silently overwrite earlier ones (the merged value at each key is the
latest partial's).  Error-on-conflict: a key appearing in two or more
partials makes the merge return the conflict error naming such a key and
no merged object; with no duplicated key it returns the shallow merge.
Deep: per key, two plain objects merge recursively, two arrays concatenate
earlier-then-later, and any other later value (dates, sets, maps,
primitives, mixed kinds) replaces the earlier one.  Concretely, deep over
`{items:[1]}` and `{items:[2]}` gives `{items:[1,2]}`, error-on-conflict
over `{x:1}` and `{x:2}` raises naming `x`, and shallow over the same
gives `{x:2}`. -/
theorem parallel_merge_strategies (name : String) (rs : List JVal)
    (hrs : ∀ r ∈ rs, nodupKeys (assignFields r) = true) :
    (parallelCombine name .shallow rs = .ok (objectAssign rs)
      ∧ ∀ k, lookupKey (objectAssign rs) k = lastLookup rs k)
    ∧ ((∃ key, 2 ≤ rs.countP (fun r => (enumKeysOf r).contains key)) →
        ∃ key, parallelCombine name .errorOnConflict rs
            = .error (conflictMsg name key)
          ∧ 2 ≤ rs.countP (fun r => (enumKeysOf r).contains key))
    ∧ ((∀ key, rs.countP (fun r => (enumKeysOf r).contains key) ≤ 1) →
        parallelCombine name .errorOnConflict rs = .ok (objectAssign rs))
    ∧ (∀ (fa fb : Fields) (k : String), wfF fa = true → wfF fb = true →
        lookupKey (deepMerge [.vobj fa, .vobj fb]) k =
          match lookupKey fa k, lookupKey fb k with
          | old, none => old
          | some (.varr xs), some (.varr ys) => some (.varr (xs ++ ys))
          | some (.vobj ea), some (.vobj eb) =>
              some (.vobj (deepMerge [.vobj ea, .vobj eb]))
          | _, some w => some w)
    ∧ parallelCombine "parallel" .deep
        [.vobj [("items", .varr [.vnum 1])], .vobj [("items", .varr [.vnum 2])]]
        = .ok [("items", .varr [.vnum 1, .vnum 2])]
    ∧ parallelCombine "parallel" .errorOnConflict
        [.vobj [("x", .vnum 1)], .vobj [("x", .vnum 2)]]
        = .error (conflictMsg "parallel" "x")
    ∧ parallelCombine "parallel" .shallow
        [.vobj [("x", .vnum 1)], .vobj [("x", .vnum 2)]]
        = .ok [("x", .vnum 2)] := by
  have hEnum : ∀ r ∈ rs, (enumKeysOf r).Nodup := by
    intro r hr
    unfold enumKeysOf
    by_cases hq : truthy r && typeofObject r
    · rw [if_pos hq]
      exact nodupKeys_nodup (hrs r hr)
    · rw [if_neg hq]
      simp
  refine ⟨⟨rfl, fun k => lookup_objectAssign hrs k⟩, ?_, ?_,
    fun fa fb k hwa hwb => deepMerge_lookup_two fa fb k hwa hwb, ?_, rfl, rfl⟩
  · rintro ⟨key0, hk0⟩
    cases hscan : conflictScan [] rs with
    | none =>
        exfalso
        have := conflictScan_none (List.nodup_nil) hscan key0
        rw [keyList_count key0 hEnum] at this
        simp only [List.count_nil, Nat.zero_add] at this
        omega
    | some key =>
        refine ⟨key, ?_, ?_⟩
        · simp [parallelCombine, hscan]
        · have := conflictScan_some hscan
          rw [keyList_count key hEnum] at this
          simp only [List.count_nil, Nat.zero_add] at this
          exact this
  · intro h
    have hscan : conflictScan [] rs = none := by
      refine conflictScan_complete ?_
      intro key
      rw [keyList_count key hEnum]
      simpa using h key
    simp [parallelCombine, hscan]
  · simp [parallelCombine, deepMerge, deepMergeGo, jdepthList, jdepth, jdepthF,
      dmFields, dmKey, lookupKey, setKey, isPlainObject]

/-- Witness for C4: the strategies applied to the two concrete partials
`{x:1}` and `{x:2}`. -/
theorem parallel_merge_strategies_witness :
    parallelCombine "w" .shallow [JVal.vobj [("x", .vnum 1)], JVal.vobj [("x", .vnum 2)]]
      = .ok (objectAssign [JVal.vobj [("x", .vnum 1)], JVal.vobj [("x", .vnum 2)]]) :=
  (parallel_merge_strategies "w" [.vobj [("x", .vnum 1)], .vobj [("x", .vnum 2)]]
    (by simp [nodupKeys, hasKey, lookupKey, assignFields])).1.1

theorem emit_trace (st : EngSt) (e : TraceEv) :
    (emit st e).trace = st.trace ++ [e] := rfl

theorem advance_trace (st : EngSt) (ms : Nat) :
    (advance st ms).trace = st.trace := rfl

theorem innerEv_loopEv {e : TraceEv} (h : innerEv e = true) : loopEv e = true := by
  cases e <;> simp [innerEv, loopEv] at h ⊢

theorem innerEv_not_obs {e : TraceEv} (h : innerEv e = true) : obsEv e = false := by
  cases e <;> simp [innerEv, obsEv] at h ⊢

theorem innerEv_not_retry {e : TraceEv} (h : innerEv e = true) :
    isStepRetryEv e = false := by
  cases e <;> simp [innerEv, isStepRetryEv] at h ⊢

namespace FlowExecutor

theorem publishEvent_trace (channel : String) (ev : JVal) (ctx : Ctx) (s : EngSt) :
    ∃ e, (publishEvent channel ev ctx s).trace = s.trace ++ [e]
      ∧ innerEv e = true :=
  ⟨_, rfl, rfl⟩

theorem publishFold_trace (channel : String) (ctx : Ctx) (evs : List JVal) :
    ∀ (s : EngSt),
    ∃ d, (evs.foldl (fun s ev =>
        if truthy ev && truthy (getProp ev "eventType") then
          publishEvent channel ev ctx s
        else s) s).trace = s.trace ++ d ∧ d.all innerEv = true := by
  induction evs with
  | nil => intro s; exact ⟨[], by simp⟩
  | cons ev rest ih =>
      intro s
      simp only [List.foldl_cons]
      by_cases hc : truthy ev && truthy (getProp ev "eventType")
      · rw [if_pos hc]
        obtain ⟨e, he, hie⟩ := publishEvent_trace channel ev ctx s
        obtain ⟨d, hd, ha⟩ := ih (publishEvent channel ev ctx s)
        refine ⟨e :: d, ?_, ?_⟩
        · rw [hd, he]
          simp
        · simp [List.all_cons, hie, ha]
      · rw [if_neg hc]
        exact ih s

theorem executeEvent_trace (stepName channel : String)
    (handler : Nat → Ctx → HandlerResult JVal) (ctx : Ctx)
    (options : ExecOptions) (attempt : Nat) (st : EngSt) :
    ∃ d, (executeEvent stepName channel handler ctx options attempt st).2.1.trace
        = st.trace ++ d ∧ d.all innerEv = true := by
  unfold executeEvent
  by_cases h1 : !ctx.deps.eventPublisher
  · rw [if_pos h1]
    by_cases h2 : (options.errorHandling.bind (·.throwOnMissingEventPublisher)).getD true
    · rw [if_pos h2]; exact ⟨[], by simp⟩
    · rw [if_neg h2]; exact ⟨[], by simp⟩
  · rw [if_neg h1]
    by_cases h2 : !ctx.deps.publishIsFunction
    · rw [if_pos h2]; exact ⟨[], by simp⟩
    · rw [if_neg h2]
      set hp := handler attempt ctx with hhp
      clear_value hp
      obtain ⟨res, dur⟩ := hp
      cases res with
      | error e =>
          exact ⟨[.invoked stepName attempt], by simp [emit_trace], by simp [innerEv]⟩
      | ok events =>
          by_cases ht : !truthy events
          · refine ⟨[.invoked stepName attempt], ?_, by simp [innerEv]⟩
            simp [ht, emit_trace]
          · simp only [ht, Bool.false_eq_true, if_false]
            clear hhp ht
            obtain ⟨d, hd, ha⟩ := publishFold_trace channel ctx
              (match events with | .varr xs => xs | v => [v])
              (emit st (.invoked stepName attempt))
            refine ⟨.invoked stepName attempt :: d, ?_, by simpa [innerEv] using ha⟩
            have he2 : (emit st (TraceEv.invoked stepName attempt)).trace ++ d
                = st.trace ++ TraceEv.invoked stepName attempt :: d := by
              simp [emit_trace]
            exact hd.trans he2

theorem executeTransaction_trace (stepName : String)
    (handler : Nat → Ctx → HandlerResult JVal) (ctx : Ctx)
    (options : ExecOptions) (attempt : Nat) (st : EngSt) :
    ∃ d, (executeTransaction stepName handler ctx options attempt st).2.1.trace
        = st.trace ++ d ∧ d.all innerEv = true := by
  unfold executeTransaction
  by_cases h1 : !ctx.deps.db
  · rw [if_pos h1]
    by_cases h2 : (options.errorHandling.bind (·.throwOnMissingDatabase)).getD true
    · rw [if_pos h2]; exact ⟨[], by simp⟩
    · rw [if_neg h2]; exact ⟨[], by simp⟩
  · rw [if_neg h1]
    exact ⟨[.invoked stepName attempt], by simp [emit_trace], by simp [innerEv]⟩

theorem runVariant_trace (step : StepDef) (ctx : Ctx) (options : ExecOptions)
    (attempt : Nat) (st : EngSt) :
    ∃ d, (runVariant step ctx options attempt st).2.1.trace = st.trace ++ d
      ∧ d.all innerEv = true := by
  unfold runVariant
  cases step.variant with
  | validate h => exact ⟨[.invoked step.name attempt], by simp [emit_trace], by simp [innerEv]⟩
  | step h => exact ⟨[.invoked step.name attempt], by simp [emit_trace], by simp [innerEv]⟩
  | transaction h => exact executeTransaction_trace step.name h ctx options attempt st
  | event channel h => exact executeEvent_trace step.name channel h ctx options attempt st
  | brk bc brv => exact ⟨[], by simp⟩

theorem executeSingleStep_trace (step : StepDef) (ctx : Ctx)
    (options : ExecOptions) (attempt : Nat) (st : EngSt) :
    ∃ d, d.all innerEv = true ∧
      (executeSingleStep step ctx options attempt st).2.trace
        = st.trace ++ [TraceEv.stepStart step.name] ++ d
          ++ [match (executeSingleStep step ctx options attempt st).1 with
              | .ok _ => TraceEv.stepComplete step.name
              | .error _ => TraceEv.stepError step.name] := by
  obtain ⟨d, hd, ha⟩ :=
    runVariant_trace step ctx options attempt (emit st (.stepStart step.name))
  refine ⟨d, ha, ?_⟩
  unfold executeSingleStep
  rcases hT : (match step.retryOptions.bind (fun r => r.stepTimeout) with
    | some t => some t
    | none => options.stepTimeout) with _ | t
  · cases hE : (runVariant step ctx options attempt (emit st (.stepStart step.name))).1 with
    | ok v => simp [hT, hE, hd, emit_trace, advance_trace]
    | error e => simp [hT, hE, hd, emit_trace, advance_trace]
  · by_cases hrace : t ≠ 0
        ∧ (runVariant step ctx options attempt (emit st (.stepStart step.name))).2.2 > t
    · simp [hT, hrace, hd, emit_trace, advance_trace]
    · cases hE : (runVariant step ctx options attempt (emit st (.stepStart step.name))).1 with
      | ok v => simp [hT, hrace, hE, hd, emit_trace, advance_trace]
      | error e => simp [hT, hrace, hE, hd, emit_trace, advance_trace]

end FlowExecutor

theorem all_innerEv_loopEv {d : List TraceEv} (h : d.all innerEv = true) :
    d.all loopEv = true := by
  simp only [List.all_eq_true] at h ⊢
  exact fun e he => innerEv_loopEv (h e he)

theorem obsProj_innerEv_nil {d : List TraceEv} (h : d.all innerEv = true) :
    obsProj d = [] := by
  simp only [List.all_eq_true] at h
  unfold obsProj
  rw [List.filter_eq_nil_iff]
  intro e he
  simp [innerEv_not_obs (h e he)]

theorem countP_retry_innerEv {d : List TraceEv} (h : d.all innerEv = true) :
    d.countP isStepRetryEv = 0 := by
  simp only [List.all_eq_true] at h
  rw [List.countP_eq_zero]
  intro e he
  simp [innerEv_not_retry (h e he)]

namespace FlowExecutor

theorem retryGo_trace (step : StepDef) (ctx : Ctx) (options : ExecOptions)
    (ro : RetryOptions) :
    ∀ (remaining attempt delay : Nat) (st : EngSt),
    ∃ d, (retryGo step ctx options ro remaining attempt delay st).2.trace
        = st.trace ++ d ∧ d.all loopEv = true
      ∧ (∀ v, (retryGo step ctx options ro remaining attempt delay st).1 = .ok v →
          d.countP isStepRetryEv = 0 →
          ∃ d', d'.all innerEv = true
            ∧ d = [TraceEv.stepStart step.name] ++ d'
                ++ [TraceEv.stepComplete step.name]) := by
  intro remaining
  induction remaining with
  | zero =>
      intro attempt delay st
      refine ⟨[], by simp [retryGo], by simp, ?_⟩
      intro v hv
      simp [retryGo] at hv
  | succ remaining ih =>
      intro attempt delay st
      obtain ⟨d0, ha0, ht0⟩ := executeSingleStep_trace step ctx options attempt st
      rcases hE : executeSingleStep step ctx options attempt st with ⟨res, st1⟩
      rw [hE] at ht0
      cases res with
      | ok v =>
          have hr : retryGo step ctx options ro (remaining + 1) attempt delay st
              = (.ok v, st1) := by
            simp [retryGo, hE]
          refine ⟨[TraceEv.stepStart step.name] ++ d0
            ++ [TraceEv.stepComplete step.name], ?_, ?_, ?_⟩
          · rw [hr]
            simpa using ht0
          · have hl := all_innerEv_loopEv ha0
            simp [List.all_append, loopEv, hl]
          · intro w _ _
            exact ⟨d0, ha0, rfl⟩
      | error e =>
          by_cases hsr : (match ro.shouldRetry with
            | some f => !f e
            | none => false) = true
          · have hr : retryGo step ctx options ro (remaining + 1) attempt delay st
                = (.error e, st1) := by
              simp [retryGo, hE, hsr]
            refine ⟨[TraceEv.stepStart step.name] ++ d0
              ++ [TraceEv.stepError step.name], ?_, ?_, ?_⟩
            · rw [hr]; simpa using ht0
            · have hl := all_innerEv_loopEv ha0
              simp [List.all_append, loopEv, hl]
            · intro w hw
              rw [hr] at hw
              simp at hw
          · by_cases hval : isValidationError e = true
            · have hr : retryGo step ctx options ro (remaining + 1) attempt delay st
                  = (.error e, st1) := by
                simp [retryGo, hE, hsr, hval]
              refine ⟨[TraceEv.stepStart step.name] ++ d0
                ++ [TraceEv.stepError step.name], ?_, ?_, ?_⟩
              · rw [hr]; simpa using ht0
              · have hl := all_innerEv_loopEv ha0
                simp [List.all_append, loopEv, hl]
              · intro w hw
                rw [hr] at hw
                simp at hw
            · by_cases hlast : attempt = ro.maxAttempts
              · have hr : retryGo step ctx options ro (remaining + 1) attempt delay st
                    = (.error e, st1) := by
                  simp only [retryGo, hE]
                  rw [if_neg hsr, if_neg hval, if_pos hlast]
                refine ⟨[TraceEv.stepStart step.name] ++ d0
                  ++ [TraceEv.stepError step.name], ?_, ?_, ?_⟩
                · rw [hr]; simpa using ht0
                · have hl := all_innerEv_loopEv ha0
                  simp [List.all_append, loopEv, hl]
                · intro w hw
                  rw [hr] at hw
                  simp at hw
              · have hr : retryGo step ctx options ro (remaining + 1) attempt delay st
                    = retryGo step ctx options ro remaining (attempt + 1)
                        (nextDelay ro delay)
                        (advance (emit (emit st1
                          (.stepRetry step.name attempt ro.maxAttempts))
                          (.waited delay)) delay) := by
                  simp [retryGo, hE, hsr, hval, hlast]
                obtain ⟨dr, hdr, har, hokr⟩ := ih (attempt + 1) (nextDelay ro delay)
                  (advance (emit (emit st1
                    (.stepRetry step.name attempt ro.maxAttempts))
                    (.waited delay)) delay)
                refine ⟨[TraceEv.stepStart step.name] ++ d0
                  ++ [TraceEv.stepError step.name,
                      TraceEv.stepRetry step.name attempt ro.maxAttempts,
                      TraceEv.waited delay] ++ dr, ?_, ?_, ?_⟩
                · rw [hr, hdr]
                  simp only [advance_trace, emit_trace]
                  rw [ht0]
                  simp
                · have hl := all_innerEv_loopEv ha0
                  simp [List.all_append, loopEv, hl, har]
                · intro w _ hcount
                  exfalso
                  rw [List.countP_eq_zero] at hcount
                  have hmem : TraceEv.stepRetry step.name attempt ro.maxAttempts
                      ∈ [TraceEv.stepStart step.name] ++ d0
                        ++ [TraceEv.stepError step.name,
                            TraceEv.stepRetry step.name attempt ro.maxAttempts,
                            TraceEv.waited delay] ++ dr := by simp
                  have hfalse := hcount _ hmem
                  simp [isStepRetryEv] at hfalse

theorem executeStep_trace (step : StepDef) (ctx : Ctx) (options : ExecOptions)
    (st : EngSt) :
    ∃ d, (executeStep step ctx options st).2.trace = st.trace ++ d
      ∧ d.all loopEv = true
      ∧ (∀ v, (executeStep step ctx options st).1 = .ok v →
          d.countP isStepRetryEv = 0 →
          ∃ d', d'.all innerEv = true
            ∧ d = [TraceEv.stepStart step.name] ++ d'
                ++ [TraceEv.stepComplete step.name]) := by
  unfold executeStep
  cases hro : step.retryOptions with
  | some ro => exact retryGo_trace step ctx options ro ro.maxAttempts 1 ro.delayMs st
  | none =>
      obtain ⟨d0, ha0, ht0⟩ := executeSingleStep_trace step ctx options 1 st
      rcases hE : executeSingleStep step ctx options 1 st with ⟨res, st1⟩
      rw [hE] at ht0
      cases res with
      | ok v =>
          refine ⟨[TraceEv.stepStart step.name] ++ d0
            ++ [TraceEv.stepComplete step.name], by simpa using ht0, ?_, ?_⟩
          · have hl := all_innerEv_loopEv ha0
            simp [List.all_append, loopEv, hl]
          · intro w _ _
            exact ⟨d0, ha0, rfl⟩
      | error e =>
          refine ⟨[TraceEv.stepStart step.name] ++ d0
            ++ [TraceEv.stepError step.name], by simpa using ht0, ?_, ?_⟩
          · have hl := all_innerEv_loopEv ha0
            simp [List.all_append, loopEv, hl]
          · intro w hw
            simp at hw

theorem execAndMerge_trace (step : StepDef) (ctx : Ctx) (options : ExecOptions)
    (st : EngSt) :
    ∃ d, outTrace (execAndMerge step ctx options st) = st.trace ++ d
      ∧ d.all loopEv = true := by
  obtain ⟨d, hd, ha, _⟩ := executeStep_trace step ctx options st
  unfold execAndMerge
  rcases hE : executeStep step ctx options st with ⟨res, st1⟩
  rw [hE] at hd
  cases res with
  | error e => exact ⟨d, hd, ha⟩
  | ok result => exact ⟨d, hd, ha⟩

theorem execAndMerge_next {step : StepDef} {ctx : Ctx} {options : ExecOptions}
    {st : EngSt} {c' : Ctx} {st' : EngSt}
    (h : execAndMerge step ctx options st = .next c' st') :
    ∃ d, st'.trace = st.trace ++ d ∧ d.all loopEv = true
      ∧ (d.countP isStepRetryEv = 0 →
          obsProj d = [TraceEv.stepStart step.name, TraceEv.stepComplete step.name]) := by
  obtain ⟨d, hd, ha, hok⟩ := executeStep_trace step ctx options st
  unfold execAndMerge at h
  rcases hE : executeStep step ctx options st with ⟨res, st1⟩
  rw [hE] at hd h
  cases res with
  | error e => cases h
  | ok result =>
      cases h
      refine ⟨d, hd, ha, ?_⟩
      intro hzero
      obtain ⟨d', ha', hd'⟩ := hok result (by rw [hE]) hzero
      subst hd'
      rw [obsProj, List.filter_append, List.filter_append,
        show List.filter obsEv d' = [] from obsProj_innerEv_nil ha']
      simp [obsEv]

theorem stepOnce_any_trace (flowName : String) (startTime : Nat)
    (options : ExecOptions) (step : StepDef) (ctx : Ctx) (st : EngSt) :
    ∃ d, outTrace (stepOnce flowName startTime options step ctx st)
        = st.trace ++ d ∧ d.all loopEv = true := by
  unfold stepOnce
  by_cases hto : flowTimeoutHit options startTime st.now
  · rw [if_pos hto]
    exact ⟨[], by simp [outTrace], rfl⟩
  · rw [if_neg hto]
    by_cases hcond : (match step.condition with
        | some c => !c (withCurrentStep ctx step.name)
        | none => false) = true
    · rw [if_pos hcond]
      exact ⟨[.stepSkipped step.name], by simp [outTrace, emit_trace], by simp [loopEv]⟩
    · rw [if_neg hcond]
      cases hv : step.variant with
      | brk bc brv =>
          by_cases hb : bc (withCurrentStep ctx step.name)
      -- fallthrough handled below
          · refine ⟨[.stepStart step.name, .stepComplete step.name,
              .flowBreak flowName step.name], ?_, by simp [loopEv]⟩
            simp [hb, outTrace, emit_trace]
          · refine ⟨[.stepStart step.name, .stepComplete step.name], ?_, by simp [loopEv]⟩
            simp [hb, outTrace, emit_trace]
      | validate h => exact execAndMerge_trace step (withCurrentStep ctx step.name) options st
      | step h => exact execAndMerge_trace step (withCurrentStep ctx step.name) options st
      | transaction h => exact execAndMerge_trace step (withCurrentStep ctx step.name) options st
      | event channel h => exact execAndMerge_trace step (withCurrentStep ctx step.name) options st

theorem stepOnce_next_trace {flowName : String} {startTime : Nat}
    {options : ExecOptions} {step : StepDef} {ctx : Ctx} {st : EngSt}
    {c' : Ctx} {st' : EngSt}
    (h : stepOnce flowName startTime options step ctx st = .next c' st') :
    ∃ d, st'.trace = st.trace ++ d ∧ d.all loopEv = true
      ∧ (d.countP isStepRetryEv = 0 →
          obsProj d = [TraceEv.stepSkipped step.name]
          ∨ obsProj d = [TraceEv.stepStart step.name, TraceEv.stepComplete step.name]) := by
  unfold stepOnce at h
  by_cases hto : flowTimeoutHit options startTime st.now
  · rw [if_pos hto] at h; cases h
  · rw [if_neg hto] at h
    by_cases hcond : (match step.condition with
        | some c => !c (withCurrentStep ctx step.name)
        | none => false) = true
    · rw [if_pos hcond] at h
      cases h
      refine ⟨[.stepSkipped step.name], by simp [emit_trace], by simp [loopEv], ?_⟩
      intro _
      exact Or.inl (by simp [obsProj, obsEv])
    · rw [if_neg hcond] at h
      cases hv : step.variant with
      | brk bc brv =>
          rw [hv] at h
          by_cases hb : bc (withCurrentStep ctx step.name)
          · simp only [hb, if_true] at h
            cases h
          · simp only [hb, Bool.false_eq_true, if_false] at h
            cases h
            refine ⟨[.stepStart step.name, .stepComplete step.name],
              by simp [emit_trace], by simp [loopEv], ?_⟩
            intro _
            exact Or.inr (by simp [obsProj, obsEv])
      | validate hh =>
          rw [hv] at h
          obtain ⟨d, hd, ha, hobs⟩ := execAndMerge_next h
          exact ⟨d, hd, ha, fun hz => Or.inr (hobs hz)⟩
      | step hh =>
          rw [hv] at h
          obtain ⟨d, hd, ha, hobs⟩ := execAndMerge_next h
          exact ⟨d, hd, ha, fun hz => Or.inr (hobs hz)⟩
      | transaction hh =>
          rw [hv] at h
          obtain ⟨d, hd, ha, hobs⟩ := execAndMerge_next h
          exact ⟨d, hd, ha, fun hz => Or.inr (hobs hz)⟩
      | event channel hh =>
          rw [hv] at h
          obtain ⟨d, hd, ha, hobs⟩ := execAndMerge_next h
          exact ⟨d, hd, ha, fun hz => Or.inr (hobs hz)⟩

theorem execLoop_append (flowName : String) (startTime : Nat)
    (options : ExecOptions) (pre rest : List StepDef) :
    ∀ (ctx : Ctx) (st : EngSt),
    execLoop flowName startTime options (pre ++ rest) ctx st
      = match execLoop flowName startTime options pre ctx st with
        | .next c' st' => execLoop flowName startTime options rest c' st'
        | out => out := by
  induction pre with
  | nil => intro ctx st; simp [execLoop]
  | cons s pre ih =>
      intro ctx st
      simp only [List.cons_append, execLoop]
      cases stepOnce flowName startTime options s ctx st with
      | next c' st' => exact ih c' st'
      | broke v st' => rfl
      | failed e c' st' => rfl

theorem execLoop_any_trace (flowName : String) (startTime : Nat)
    (options : ExecOptions) (steps : List StepDef) :
    ∀ (ctx : Ctx) (st : EngSt),
    ∃ d, outTrace (execLoop flowName startTime options steps ctx st)
        = st.trace ++ d ∧ d.all loopEv = true := by
  induction steps with
  | nil => intro ctx st; exact ⟨[], by simp [execLoop, outTrace], rfl⟩
  | cons s rest ih =>
      intro ctx st
      obtain ⟨d0, hd0, ha0⟩ := stepOnce_any_trace flowName startTime options s ctx st
      simp only [execLoop]
      cases hso : stepOnce flowName startTime options s ctx st with
      | next c' st' =>
          obtain ⟨d1, hd1, ha1⟩ := ih c' st'
          refine ⟨d0 ++ d1, ?_, by simp [List.all_append, ha0, ha1]⟩
          rw [hso] at hd0
          simp only [outTrace] at hd0
          rw [hd1, hd0]
          simp
      | broke v st' =>
          rw [hso] at hd0
          exact ⟨d0, hd0, ha0⟩
      | failed e c' st' =>
          rw [hso] at hd0
          exact ⟨d0, hd0, ha0⟩

theorem execLoop_next_trace (flowName : String) (startTime : Nat)
    (options : ExecOptions) (steps : List StepDef) :
    ∀ (ctx : Ctx) (st : EngSt) (c' : Ctx) (st' : EngSt),
    execLoop flowName startTime options steps ctx st = .next c' st' →
    ∃ d, st'.trace = st.trace ++ d ∧ d.all loopEv = true
      ∧ (d.countP isStepRetryEv = 0 →
          ∃ blocks : List (List TraceEv), obsProj d = blocks.flatten
            ∧ List.Forall₂ (fun (s : StepDef) b =>
                b = [TraceEv.stepSkipped s.name]
                ∨ b = [TraceEv.stepStart s.name, TraceEv.stepComplete s.name])
              steps blocks) := by
  induction steps with
  | nil =>
      intro ctx st c' st' h
      simp only [execLoop] at h
      cases h
      exact ⟨[], by simp, rfl, fun _ => ⟨[], by simp [obsProj], List.Forall₂.nil⟩⟩
  | cons s rest ih =>
      intro ctx st c' st' h
      simp only [execLoop] at h
      cases hso : stepOnce flowName startTime options s ctx st with
      | next c1 st1 =>
          simp only [hso] at h
          obtain ⟨d0, hd0, ha0, hobs0⟩ := stepOnce_next_trace hso
          obtain ⟨d1, hd1, ha1, hobs1⟩ := ih c1 st1 c' st' h
          refine ⟨d0 ++ d1, by rw [hd1, hd0]; simp,
            by simp [List.all_append, ha0, ha1], ?_⟩
          intro hz
          rw [List.countP_append] at hz
          have hz0 : d0.countP isStepRetryEv = 0 := by omega
          have hz1 : d1.countP isStepRetryEv = 0 := by omega
          obtain ⟨blocks, hb, hf⟩ := hobs1 hz1
          refine ⟨(obsProj d0) :: blocks, ?_, ?_⟩
          · rw [obsProj, List.filter_append]
            rw [show List.filter obsEv d1 = obsProj d1 from rfl, hb]
            simp [obsProj]
          · refine List.Forall₂.cons ?_ hf
            exact hobs0 hz0
      | broke v st1 => simp only [hso] at h; cases h
      | failed e c1 st1 => simp only [hso] at h; cases h

theorem waitsOf_append (a b : List TraceEv) :
    waitsOf (a ++ b) = waitsOf a ++ waitsOf b := by
  simp [waitsOf, List.filterMap_append]

theorem invocationsOf_append (a b : List TraceEv) (name : String) :
    invocationsOf (a ++ b) name = invocationsOf a name + invocationsOf b name := by
  simp [invocationsOf, List.countP_append]

/-- Evaluation of one attempt of a compute (`step`) variant with no step
timeout in effect. -/
theorem executeSingleStep_step_eval (step : StepDef)
    (hfun : Nat → Ctx → HandlerResult JVal) (ctx : Ctx)
    (options : ExecOptions) (attempt : Nat) (st : EngSt)
    (hv : step.variant = .step hfun)
    (hto : (match step.retryOptions.bind (fun r => r.stepTimeout) with
      | some t => some t
      | none => options.stepTimeout) = none) :
    executeSingleStep step ctx options attempt st
      = ((hfun attempt ctx).1,
          { now := st.now + (hfun attempt ctx).2,
            trace := st.trace
              ++ [TraceEv.stepStart step.name, TraceEv.invoked step.name attempt]
              ++ [match (hfun attempt ctx).1 with
                  | .ok _ => TraceEv.stepComplete step.name
                  | .error _ => TraceEv.stepError step.name] }) := by
  unfold executeSingleStep
  rw [hto]
  unfold runVariant
  rw [hv]
  cases hr : (hfun attempt ctx).1 with
  | ok v => simp [hr, emit, advance]
  | error e => simp [hr, emit, advance]

/-- A run of the retry loop whose attempts `attempt, ..., attempt+k-1`
fail with plain errors and whose attempt `attempt+k` succeeds: the loop
returns the success, sleeps exactly the `engineDelays` sequence from the
current delay, and invokes the handler `k+1` times. -/
theorem retryGo_schedule (step : StepDef) (hfun : Nat → Ctx → HandlerResult JVal)
    (ctx : Ctx) (options : ExecOptions) (ro : RetryOptions)
    (hsr : ro.shouldRetry = none) (hv : step.variant = .step hfun)
    (hto : (match step.retryOptions.bind (fun r => r.stepTimeout) with
      | some t => some t
      | none => options.stepTimeout) = none) (v : JVal) :
    ∀ (k attempt remaining delay : Nat) (st : EngSt),
    k < remaining → attempt + k ≤ ro.maxAttempts →
    (∀ i, attempt ≤ i → i < attempt + k →
      ∃ m d, hfun i ctx = (.error (.genericError m), d)) →
    (∃ d, hfun (attempt + k) ctx = (.ok v, d)) →
    (retryGo step ctx options ro remaining attempt delay st).1 = .ok v
    ∧ waitsOf (retryGo step ctx options ro remaining attempt delay st).2.trace
        = waitsOf st.trace ++ engineDelays ro k delay
    ∧ invocationsOf
        (retryGo step ctx options ro remaining attempt delay st).2.trace step.name
        = invocationsOf st.trace step.name + (k + 1) := by
  intro k
  induction k with
  | zero =>
      intro attempt remaining delay st hrem _ _ hsucc
      obtain ⟨dur, hdur⟩ := hsucc
      rw [Nat.add_zero] at hdur
      obtain ⟨r, rfl⟩ : ∃ r, remaining = r + 1 := ⟨remaining - 1, by omega⟩
      have hE := executeSingleStep_step_eval step hfun ctx options attempt st hv hto
      rw [hdur] at hE
      have hr : retryGo step ctx options ro (r + 1) attempt delay st
          = executeSingleStep step ctx options attempt st := by
        simp [retryGo, hE]
      rw [hr, hE]
      refine ⟨rfl, ?_, ?_⟩
      · simp [waitsOf_append, waitsOf, engineDelays]
      · simp [invocationsOf_append, invocationsOf]
  | succ k ih =>
      intro attempt remaining delay st hrem hmax hfail hsucc
      obtain ⟨m, dur, hdur⟩ := hfail attempt (le_refl _) (by omega)
      obtain ⟨r, rfl⟩ : ∃ r, remaining = r + 1 := ⟨remaining - 1, by omega⟩
      have hE := executeSingleStep_step_eval step hfun ctx options attempt st hv hto
      rw [hdur] at hE
      have hne : attempt ≠ ro.maxAttempts := by omega
      have hr : retryGo step ctx options ro (r + 1) attempt delay st
          = retryGo step ctx options ro r (attempt + 1) (nextDelay ro delay)
              (advance (emit (emit
                { now := st.now + dur,
                  trace := st.trace
                    ++ [TraceEv.stepStart step.name,
                        TraceEv.invoked step.name attempt]
                    ++ [TraceEv.stepError step.name] }
                (.stepRetry step.name attempt ro.maxAttempts))
                (.waited delay)) delay) := by
        simp only [retryGo, hE]
        rw [if_neg (by simp [hsr]), if_neg (by simp [isValidationError]),
          if_neg hne]
      have hih := ih (attempt + 1) r (nextDelay ro delay)
        (advance (emit (emit
          { now := st.now + dur,
            trace := st.trace
              ++ [TraceEv.stepStart step.name,
                  TraceEv.invoked step.name attempt]
              ++ [TraceEv.stepError step.name] }
          (.stepRetry step.name attempt ro.maxAttempts))
          (.waited delay)) delay)
        (by omega) (by omega)
        (fun i h1 h2 => hfail i (by omega) (by omega))
        (by
          obtain ⟨d0, hd0⟩ := hsucc
          refine ⟨d0, ?_⟩
          rw [← hd0]
          congr 1
          omega)
      rw [hr]
      refine ⟨hih.1, ?_, ?_⟩
      · rw [hih.2.1]
        simp only [advance_trace, emit_trace]
        rw [waitsOf_append, waitsOf_append]
        simp [waitsOf, engineDelays]
      · rw [hih.2.2]
        simp only [advance_trace, emit_trace]
        rw [invocationsOf_append, invocationsOf_append]
        simp [invocationsOf]
        omega

end FlowExecutor

/-- C1 (amended): for a compute step carrying a retry policy with no
`shouldRetry` predicate and no step timeout, whose handler fails the first
`k` attempts with plain errors (`k < maxAttempts`) and succeeds on attempt
`k+1`, the engine returns the success and waits between consecutive
attempts exactly the delays `d₁ = delayMs`,
`d_{i+1} = nextDelay d_i` — where the delay advances by
`min(d_i * backoffMultiplier, maxDelayMs || MAX_SAFE_INTEGER)` only when a
nonzero `backoffMultiplier` was supplied and otherwise stays `delayMs`
(the claim's `min(d_i * 1, maxDelayMs)` default is not applied) — invoking
the handler exactly `k+1` times. -/
theorem retry_backoff_delays (step : StepDef)
    (hfun : Nat → Ctx → HandlerResult JVal) (ctx : Ctx) (options : ExecOptions)
    (ro : RetryOptions) (st : EngSt) (k : Nat) (v : JVal)
    (hsr : ro.shouldRetry = none)
    (hv : step.variant = .step hfun)
    (hro : step.retryOptions = some ro)
    (hst1 : ro.stepTimeout = none) (hst2 : options.stepTimeout = none)
    (hk : k < ro.maxAttempts)
    (hfail : ∀ i, 1 ≤ i → i ≤ k →
      ∃ m d, hfun i ctx = (.error (.genericError m), d))
    (hsucc : ∃ d, hfun (k + 1) ctx = (.ok v, d)) :
    (FlowExecutor.executeWithRetry step ctx options ro st).1 = .ok v
    ∧ waitsOf (FlowExecutor.executeWithRetry step ctx options ro st).2.trace
        = waitsOf st.trace ++ engineDelays ro k ro.delayMs
    ∧ invocationsOf (FlowExecutor.executeWithRetry step ctx options ro st).2.trace
        step.name = invocationsOf st.trace step.name + (k + 1) := by
  have hto : (match step.retryOptions.bind (fun r => r.stepTimeout) with
      | some t => some t
      | none => options.stepTimeout) = none := by
    rw [hro]
    simp [Option.bind, hst1, hst2]
  have h := FlowExecutor.retryGo_schedule step hfun ctx options ro hsr hv hto v k 1
    ro.maxAttempts ro.delayMs st (by omega) (by omega)
    (fun i h1 h2 => hfail i h1 (by omega))
    (by
      obtain ⟨d, hd⟩ := hsucc
      refine ⟨d, ?_⟩
      rw [← hd]
      congr 1
      omega)
  exact h

/-- Witness for C1's amended theorem: the spec's own example — a compute
step failing twice then succeeding under `{maxAttempts:3, delayMs:100,
backoffMultiplier:2}` waits exactly 100 ms then 200 ms. -/
theorem retry_backoff_delays_witness :
    (FlowExecutor.executeWithRetry c1step c1ctx {} c1ro { now := 0, trace := [] }).1
        = .ok (.vobj [("success", .vbool true)])
    ∧ waitsOf (FlowExecutor.executeWithRetry c1step c1ctx {} c1ro
        { now := 0, trace := [] }).2.trace = [100, 200] := by
  have h := retry_backoff_delays c1step c1hfun c1ctx {} c1ro
    { now := 0, trace := [] } 2 (.vobj [("success", .vbool true)])
    rfl rfl rfl rfl rfl (by decide)
    (fun i h1 h2 => ⟨"Retry", 1, by simp [c1hfun, h2]⟩)
    ⟨1, by simp [c1hfun]⟩
  refine ⟨h.1, ?_⟩
  rw [h.2.1]
  rfl

/-- Counterexample to C1 as stated: with `{maxAttempts:3, delayMs:500,
maxDelayMs:200}` and no `backoffMultiplier`, a handler failing twice then
succeeding is made to wait `[500, 500]`, while the claim's formula with
the default multiplier 1 — `d₂ = min(d₁ * 1, maxDelayMs)` — predicts
`[500, 200]`: the engine never applies the cap when `backoffMultiplier`
is absent. -/
theorem retry_backoff_cap_counterexample :
    waitsOf (FlowExecutor.executeWithRetry c1xstep c1ctx {} c1xro
        { now := 0, trace := [] }).2.trace = [500, 500]
    ∧ claimedDelays none (some 200) 2 500 = [500, 200]
    ∧ ([500, 500] : List Nat) ≠ [500, 200] :=
  ⟨rfl, rfl, by decide⟩

/-- C2, evaluated at the failing input: a validate step whose handler
always raises a plain (non-`ValidationError`) error, with a retry policy
of `maxAttempts: 5`, is invoked five times — the engine refuses to retry
only errors that are `ValidationError` instances, not validate-variant
steps as such — contradicting the claim's and the documentation's
"exactly 1 invocation".  The original error does propagate unchanged. -/
theorem validate_generic_error_retried :
    invocationsOf (FlowExecutor.execute c2cfg .vundef {} {} 0).st.trace "check" = 5
    ∧ (FlowExecutor.execute c2cfg .vundef {} {} 0).result
        = .error (.genericError "boom")
    ∧ (5 : Nat) ≠ 1 :=
  ⟨rfl, rfl, by decide⟩

/-- C8: with a flow-level timeout configured (and `throwOnError` not set
to `false`), the deadline is checked before each step begins: whenever the
loop reaches a next step with the elapsed time already over the limit, the
run fails with a timeout error carrying the flow name, the configured
duration, and the name of that next step about to run — a step the loop
already completed is behind the `.next` continuation and can never be the
one named. -/
theorem flow_timeout_precheck (flowName : String) (pre post : List StepDef)
    (s : StepDef) (input : JVal) (deps : Deps) (options : ExecOptions)
    (startTime T : Nat) (c : Ctx) (st : EngSt)
    (hT : options.timeout = some T) (hT0 : T ≠ 0)
    (hthrow : options.throwOnError ≠ some false)
    (hpre : FlowExecutor.execLoop flowName startTime options pre
      (initialCtx ⟨flowName, pre ++ s :: post⟩ input deps options startTime)
      (initialSt ⟨flowName, pre ++ s :: post⟩ startTime) = .next c st)
    (helapsed : st.now - startTime > T) :
    FlowExecutor.execute ⟨flowName, pre ++ s :: post⟩ input deps options startTime
      = ⟨.error (FlowExecutor.flowTimeoutError flowName s.name
           (st.now - startTime) T),
         emit st (.flowError flowName)⟩ := by
  have hhit : FlowExecutor.flowTimeoutHit options startTime st.now = true := by
    simp [FlowExecutor.flowTimeoutHit, hT, hT0, helapsed]
  have hso : FlowExecutor.stepOnce flowName startTime options s c st
      = .failed (FlowExecutor.flowTimeoutError flowName s.name (st.now - startTime)
          (options.timeout.getD 0)) c st := by
    unfold FlowExecutor.stepOnce
    rw [if_pos hhit]
  simp only [FlowExecutor.execute]
  rw [FlowExecutor.execLoop_append flowName startTime options pre (s :: post) _ _]
  simp only [hpre]
  simp only [FlowExecutor.execLoop, hso, hT, Option.getD]
  rw [if_neg hthrow]

/-- Witness for C8: a flow with a 10 ms deadline whose first step takes
50 ms fails before its second step with a timeout error naming that second
step ("late"), not the completed first one. -/
theorem flow_timeout_precheck_witness :
    FlowExecutor.execute c8cfg .vundef {} c8opts 0
      = ⟨.error (FlowExecutor.flowTimeoutError "tf" "late" 50 10),
         emit c8st (.flowError "tf")⟩ :=
  flow_timeout_precheck "tf" [c8s1] [] c8s2 .vundef {} c8opts 0 10 c8ctx c8st
    rfl (by decide) (by decide) rfl (by decide)

namespace FlowExecutor

theorem execAndMerge_failed {step : StepDef} {ctx : Ctx} {options : ExecOptions}
    {st : EngSt} {e : JError} {c' : Ctx} {st' : EngSt}
    (h : execAndMerge step ctx options st = .failed e c' st') : c' = ctx := by
  unfold execAndMerge at h
  rcases hE : executeStep step ctx options st with ⟨res, st1⟩
  rw [hE] at h
  cases res with
  | error e2 => cases h; rfl
  | ok result => cases h

theorem execAndMerge_ok {step : StepDef} {ctx : Ctx} {options : ExecOptions}
    {st : EngSt} {r : JVal} {st₂ : EngSt}
    (hexec : executeStep step ctx options st = (.ok r, st₂)) :
    execAndMerge step ctx options st
      = .next (if truthy r && typeofObject r && !isEventVariant step then
          { ctx with state := spreadOnto ctx.state (assignFields r) }
        else ctx) st₂ := by
  unfold execAndMerge
  rw [hexec]

/-- A failed loop iteration leaves the accumulated state untouched: the
context carried by the failure differs from the incoming one at most in
the `currentStep` metadata. -/
theorem stepOnce_failed_state {flowName : String} {startTime : Nat}
    {options : ExecOptions} {step : StepDef} {ctx : Ctx} {st : EngSt}
    {e : JError} {c' : Ctx} {st' : EngSt}
    (h : stepOnce flowName startTime options step ctx st = .failed e c' st') :
    c'.state = ctx.state := by
  unfold stepOnce at h
  by_cases hto : flowTimeoutHit options startTime st.now
  · rw [if_pos hto] at h
    cases h
    rfl
  · rw [if_neg hto] at h
    by_cases hcond : (match step.condition with
        | some c => !c (withCurrentStep ctx step.name)
        | none => false) = true
    · rw [if_pos hcond] at h
      cases h
    · rw [if_neg hcond] at h
      cases hv : step.variant with
      | brk bc brv =>
          rw [hv] at h
          by_cases hb : bc (withCurrentStep ctx step.name)
          · simp only [hb, if_true] at h
            cases h
          · simp only [hb, Bool.false_eq_true, if_false] at h
            cases h
      | validate hh =>
          rw [hv] at h
          rw [execAndMerge_failed h]
          rfl
      | step hh =>
          rw [hv] at h
          rw [execAndMerge_failed h]
          rfl
      | transaction hh =>
          rw [hv] at h
          rw [execAndMerge_failed h]
          rfl
      | event channel hh =>
          rw [hv] at h
          rw [execAndMerge_failed h]
          rfl

end FlowExecutor

/-- C5: when the loop's next step fails (its retries exhausted inside
`stepOnce`) after a successful prefix, the failure's context still holds
exactly the state the prefix accumulated — the failed step contributed
nothing — and `execute` returns that state unraised when
`throwOnError === false`, while any other `throwOnError` propagates the
same error; either way the flow-failure notification is emitted. -/
theorem throw_on_error_policy (flowName : String) (pre post : List StepDef)
    (f : StepDef) (input : JVal) (deps : Deps) (options : ExecOptions)
    (startTime : Nat) (c : Ctx) (st : EngSt) (e : JError) (c' : Ctx) (st' : EngSt)
    (hpre : FlowExecutor.execLoop flowName startTime options pre
      (initialCtx ⟨flowName, pre ++ f :: post⟩ input deps options startTime)
      (initialSt ⟨flowName, pre ++ f :: post⟩ startTime) = .next c st)
    (hstep : FlowExecutor.stepOnce flowName startTime options f c st
      = .failed e c' st') :
    c'.state = c.state
    ∧ FlowExecutor.execute ⟨flowName, pre ++ f :: post⟩ input deps options startTime
        = ⟨(if options.throwOnError = some false then .ok (.vobj c.state, false)
            else .error e),
           emit st' (.flowError flowName)⟩ := by
  have hcs : c'.state = c.state := FlowExecutor.stepOnce_failed_state hstep
  refine ⟨hcs, ?_⟩
  simp only [FlowExecutor.execute]
  rw [FlowExecutor.execLoop_append flowName startTime options pre (f :: post) _ _]
  simp only [hpre]
  simp only [FlowExecutor.execLoop, hstep]
  by_cases hthrow : options.throwOnError = some false
  · rw [if_pos hthrow, if_pos hthrow, hcs]
  · rw [if_neg hthrow, if_neg hthrow]

/-- Witness for C5: a flow whose first step stores `{a:1}` and whose
second step always fails (two attempts), run with `throwOnError: false`,
returns `{a:1}` without raising. -/
theorem throw_on_error_policy_witness :
    FlowExecutor.execute c5cfg .vundef {} { throwOnError := some false } 0
      = ⟨.ok (.vobj [("a", .vnum 1)], false), emit c5st' (.flowError "pf")⟩ := by
  have h := throw_on_error_policy "pf" [c5s1] [] c5f .vundef {}
    { throwOnError := some false } 0 c5c c5st (.genericError "bad") c5c' c5st'
    rfl rfl
  exact h.2

theorem countP_flowComplete_loopEv {d : List TraceEv} (h : d.all loopEv = true) :
    d.countP isFlowCompleteEv = 0 := by
  rw [List.countP_eq_zero]
  intro e he
  have hl := (List.all_eq_true.mp h) e he
  cases e <;> simp_all [loopEv, isFlowCompleteEv]

/-- C3: when the loop reaches a break step (no run-condition) whose
break-condition evaluates true, `execute` returns at once with the
short-circuit payload — the payload-builder's value when one is given,
otherwise the accumulated state — flagged as a break; the final engine
state is fully determined without touching the remaining steps, its trace
ends in the step-completion and flow-break notifications and contains no
flow-completion notification, and `buildExecute` with any output mapper
returns the payload as-is, bypassing the mapper. -/
theorem break_short_circuit (flowName : String) (pre post : List StepDef)
    (bname : String) (bc : Ctx → Bool) (brv : Option (Ctx → JVal))
    (input : JVal) (deps : Deps) (options : ExecOptions) (startTime : Nat)
    (c : Ctx) (st : EngSt)
    (hpre : FlowExecutor.execLoop flowName startTime options pre
      (initialCtx ⟨flowName, pre ++ ⟨bname, .brk bc brv, none, none⟩ :: post⟩
        input deps options startTime)
      (initialSt ⟨flowName, pre ++ ⟨bname, .brk bc brv, none, none⟩ :: post⟩
        startTime) = .next c st)
    (hto : FlowExecutor.flowTimeoutHit options startTime st.now = false)
    (hbc : bc (FlowExecutor.withCurrentStep c bname) = true) :
    FlowExecutor.execute ⟨flowName, pre ++ ⟨bname, .brk bc brv, none, none⟩ :: post⟩
        input deps options startTime
      = ⟨.ok (breakPayload brv (FlowExecutor.withCurrentStep c bname), true),
         emit (emit (emit st (.stepStart bname)) (.stepComplete bname))
           (.flowBreak flowName bname)⟩
    ∧ (emit (emit (emit st (.stepStart bname)) (.stepComplete bname))
         (.flowBreak flowName bname)).trace.countP isFlowCompleteEv = 0
    ∧ ∀ m : JVal → Fields → JVal,
        buildExecute ⟨flowName, pre ++ ⟨bname, .brk bc brv, none, none⟩ :: post⟩
          (some m) input deps options startTime
        = (.ok (breakPayload brv (FlowExecutor.withCurrentStep c bname)),
           emit (emit (emit st (.stepStart bname)) (.stepComplete bname))
             (.flowBreak flowName bname)) := by
  have hso : FlowExecutor.stepOnce flowName startTime options
      ⟨bname, .brk bc brv, none, none⟩ c st
      = .broke (breakPayload brv (FlowExecutor.withCurrentStep c bname))
          (emit (emit (emit st (.stepStart bname)) (.stepComplete bname))
            (.flowBreak flowName bname)) := by
    simp only [FlowExecutor.stepOnce, hto, Bool.false_eq_true, if_false, hbc,
      if_true, breakPayload]
  have hex : FlowExecutor.execute
      ⟨flowName, pre ++ ⟨bname, .brk bc brv, none, none⟩ :: post⟩
        input deps options startTime
      = ⟨.ok (breakPayload brv (FlowExecutor.withCurrentStep c bname), true),
         emit (emit (emit st (.stepStart bname)) (.stepComplete bname))
           (.flowBreak flowName bname)⟩ := by
    simp only [FlowExecutor.execute]
    rw [FlowExecutor.execLoop_append flowName startTime options pre
      (⟨bname, .brk bc brv, none, none⟩ :: post) _ _]
    simp only [hpre]
    simp only [FlowExecutor.execLoop, hso]
  refine ⟨hex, ?_, ?_⟩
  · obtain ⟨d, hd, ha⟩ := FlowExecutor.execLoop_any_trace flowName startTime
      options pre
      (initialCtx ⟨flowName, pre ++ ⟨bname, .brk bc brv, none, none⟩ :: post⟩
        input deps options startTime)
      (initialSt ⟨flowName, pre ++ ⟨bname, .brk bc brv, none, none⟩ :: post⟩
        startTime)
    rw [hpre] at hd
    simp only [FlowExecutor.outTrace] at hd
    rw [emit_trace, emit_trace, emit_trace, hd]
    simp [List.countP_append, initialSt, emit, isFlowCompleteEv,
      countP_flowComplete_loopEv ha]
  · intro m
    simp only [buildExecute]
    rw [hex]
    rfl

/-- Witness for C3: a flow whose first step marks `verified` and whose
break step then fires returns the builder's payload flagged as a break,
the following step never runs, no flow-completion is notified, and a
mapper that would rewrite the output is bypassed. -/
theorem break_short_circuit_witness :
    FlowExecutor.execute c3cfg .vundef {} {} 0
      = ⟨.ok (.vobj [("already", .vbool true)], true), c3st3⟩
    ∧ c3st3.trace.countP isFlowCompleteEv = 0
    ∧ buildExecute c3cfg (some (fun _ _ => .vstr "mapped")) .vundef {} {} 0
        = (.ok (.vobj [("already", .vbool true)]), c3st3) := by
  have h := break_short_circuit "bf" [c3s1] [c3post] "gate"
    (fun ctx => truthy (getProp (.vobj ctx.state) "verified"))
    (some (fun _ => .vobj [("already", .vbool true)])) .vundef {} {} 0 c3c c3st
    rfl rfl rfl
  exact ⟨h.1, h.2.1, h.2.2 (fun _ _ => .vstr "mapped")⟩

/-- C7: after a successfully executed non-break step (no run-condition,
deadline not hit), the loop's state update is exactly: when the step is
not event-variant and its result is truthy and of object type, the
result's own fields are spread over the accumulated state
(`{...context.state, ...result}`), and otherwise — in particular for every
event step — the state is left untouched; the spread is a shallow merge in
which a key of the result overrides any existing key and all other keys
survive; and a flow of two steps producing `{a:1}` then `{b:2}` ends with
state `{a:1, b:2}`. -/
theorem state_merge_law :
    (∀ (flowName : String) (startTime : Nat) (options : ExecOptions)
      (step : StepDef) (ctx : Ctx) (st : EngSt) (r : JVal) (st₂ : EngSt),
      FlowExecutor.flowTimeoutHit options startTime st.now = false →
      step.condition = none →
      isBreakVariant step = false →
      FlowExecutor.executeStep step (FlowExecutor.withCurrentStep ctx step.name)
        options st = (.ok r, st₂) →
      FlowExecutor.stepOnce flowName startTime options step ctx st
        = .next { FlowExecutor.withCurrentStep ctx step.name with
            state := if truthy r && typeofObject r && !isEventVariant step then
                spreadOnto ctx.state (assignFields r)
              else ctx.state } st₂)
    ∧ (∀ (flowName : String) (startTime : Nat) (options : ExecOptions)
      (step : StepDef) (ctx : Ctx) (st : EngSt) (r : JVal) (st₂ : EngSt),
      FlowExecutor.flowTimeoutHit options startTime st.now = false →
      step.condition = none →
      isEventVariant step = true →
      FlowExecutor.executeStep step (FlowExecutor.withCurrentStep ctx step.name)
        options st = (.ok r, st₂) →
      FlowExecutor.stepOnce flowName startTime options step ctx st
        = .next (FlowExecutor.withCurrentStep ctx step.name) st₂)
    ∧ (∀ (s fs : Fields) (k : String), nodupKeys fs = true →
        lookupKey (spreadOnto s fs) k =
          match lookupKey fs k with
          | some v => some v
          | none => lookupKey s k)
    ∧ (FlowExecutor.execute c7cfg .vundef {} {} 0).result
        = .ok (.vobj [("a", .vnum 1), ("b", .vnum 2)], false) := by
  have ha : ∀ (flowName : String) (startTime : Nat) (options : ExecOptions)
      (step : StepDef) (ctx : Ctx) (st : EngSt) (r : JVal) (st₂ : EngSt),
      FlowExecutor.flowTimeoutHit options startTime st.now = false →
      step.condition = none →
      isBreakVariant step = false →
      FlowExecutor.executeStep step (FlowExecutor.withCurrentStep ctx step.name)
        options st = (.ok r, st₂) →
      FlowExecutor.stepOnce flowName startTime options step ctx st
        = .next { FlowExecutor.withCurrentStep ctx step.name with
            state := if truthy r && typeofObject r && !isEventVariant step then
                spreadOnto ctx.state (assignFields r)
              else ctx.state } st₂ := by
    intro flowName startTime options step ctx st r st₂ hto hcond hbrk hexec
    unfold FlowExecutor.stepOnce
    rw [hto]
    simp only [Bool.false_eq_true, if_false, hcond]
    cases hv : step.variant with
    | brk bc brv => simp [isBreakVariant, hv] at hbrk
    | validate hh =>
        show FlowExecutor.execAndMerge step
          (FlowExecutor.withCurrentStep ctx step.name) options st = _
        rw [FlowExecutor.execAndMerge_ok hexec]
        by_cases hc : (truthy r && typeofObject r && !isEventVariant step) = true
        · rw [if_pos hc, if_pos hc]
          rfl
        · rw [if_neg hc, if_neg hc]
          rfl
    | step hh =>
        show FlowExecutor.execAndMerge step
          (FlowExecutor.withCurrentStep ctx step.name) options st = _
        rw [FlowExecutor.execAndMerge_ok hexec]
        by_cases hc : (truthy r && typeofObject r && !isEventVariant step) = true
        · rw [if_pos hc, if_pos hc]
          rfl
        · rw [if_neg hc, if_neg hc]
          rfl
    | transaction hh =>
        show FlowExecutor.execAndMerge step
          (FlowExecutor.withCurrentStep ctx step.name) options st = _
        rw [FlowExecutor.execAndMerge_ok hexec]
        by_cases hc : (truthy r && typeofObject r && !isEventVariant step) = true
        · rw [if_pos hc, if_pos hc]
          rfl
        · rw [if_neg hc, if_neg hc]
          rfl
    | event channel hh =>
        show FlowExecutor.execAndMerge step
          (FlowExecutor.withCurrentStep ctx step.name) options st = _
        rw [FlowExecutor.execAndMerge_ok hexec]
        by_cases hc : (truthy r && typeofObject r && !isEventVariant step) = true
        · rw [if_pos hc, if_pos hc]
          rfl
        · rw [if_neg hc, if_neg hc]
          rfl
  refine ⟨ha, ?_, fun s fs k h => lookup_spreadOnto fs s k h, rfl⟩
  intro flowName startTime options step ctx st r st₂ hto hcond hev hexec
  have hbrk : isBreakVariant step = false := by
    cases hv : step.variant <;>
      simp [isBreakVariant, isEventVariant, hv] at hev ⊢
  have h := ha flowName startTime options step ctx st r st₂ hto hcond hbrk hexec
  rw [h]
  simp only [hev, Bool.not_true, Bool.and_false, Bool.false_eq_true, if_false]
  rfl

/-- Witness for C7: a step returning `{b:2}` over accumulated state
`{a:1}` continues the loop with state `{a:1, b:2}`. -/
theorem state_merge_law_witness :
    FlowExecutor.stepOnce "m" 0 {} c7w c7wc { now := 0, trace := [] }
      = .next c7wres
        { now := 0, trace := [.stepStart "w", .invoked "w" 1, .stepComplete "w"] } := by
  have h := (state_merge_law).1 "m" 0 {} c7w c7wc { now := 0, trace := [] }
    (.vobj [("b", .vnum 2)])
    { now := 0, trace := [.stepStart "w", .invoked "w" 1, .stepComplete "w"] }
    rfl rfl rfl rfl
  exact h

namespace FlowExecutor

/-- Evaluating the publish loop: the trace gains exactly one `published`
notification per list entry that passes the truthiness filter, in list
order, and nothing else changes. -/
theorem publishFold_eval (channel : String) (ctx : Ctx) :
    ∀ (evs : List JVal) (s : EngSt),
    evs.foldl (fun s ev =>
        if truthy ev && truthy (getProp ev "eventType") then
          publishEvent channel ev ctx s
        else s) s
      = { now := s.now,
          trace := s.trace ++
            (evs.filter (fun ev => truthy ev && truthy (getProp ev "eventType"))).map
              (fun ev => TraceEv.published channel (eventWithMeta ev ctx)) } := by
  intro evs
  induction evs with
  | nil => intro s; simp
  | cons e rest ih =>
      intro s
      simp only [List.foldl_cons, List.filter_cons]
      by_cases hc : (truthy e && truthy (getProp e "eventType")) = true
      · rw [if_pos hc, ih]
        simp [hc, publishEvent, emit]
      · rw [if_neg hc, ih]
        simp [hc]

end FlowExecutor

/-- C10: an event step with both publisher capabilities whose handler
returns a list of payloads hands to the publisher exactly the payloads
that are truthy and have a truthy `eventType`, in order; every other
payload is silently dropped — the step still succeeds (returns
`undefined`), no error is raised, and the trace records nothing for the
omission. -/
theorem event_payload_filter (stepName channel : String)
    (hfun : Nat → Ctx → HandlerResult JVal) (ctx : Ctx) (options : ExecOptions)
    (attempt : Nat) (st : EngSt) (evs : List JVal) (dur : Nat)
    (hpub : ctx.deps.eventPublisher = true)
    (hfn : ctx.deps.publishIsFunction = true)
    (hret : hfun attempt ctx = (.ok (.varr evs), dur)) :
    FlowExecutor.executeEvent stepName channel hfun ctx options attempt st
      = (.ok .vundef,
         { now := st.now,
           trace := st.trace ++ [.invoked stepName attempt]
             ++ (evs.filter (fun ev =>
                   truthy ev && truthy (getProp ev "eventType"))).map
               (fun ev => TraceEv.published channel
                 (FlowExecutor.eventWithMeta ev ctx)) },
         dur) := by
  unfold FlowExecutor.executeEvent
  simp only [hpub, hfn, Bool.not_true, Bool.false_eq_true, if_false]
  rw [hret]
  show (if !truthy (.varr evs) then _ else _) = _
  rw [if_neg (by simp [truthy])]
  rw [FlowExecutor.publishFold_eval channel ctx evs
    (emit st (.invoked stepName attempt))]
  simp [emit, List.append_assoc]

/-- C9: an event step with both publisher capabilities, in a run carrying
a correlation identifier, whose handler returns a list of valid payloads
(each truthy with a truthy `eventType`), publishes every payload to the
step's declared channel in the order produced; each published payload is
the handler's payload enriched with the run's correlation identifier under
`correlationId` — the engine-injected value, overriding any
handler-supplied one. -/
theorem event_enrichment_publish (stepName channel : String)
    (hfun : Nat → Ctx → HandlerResult JVal) (ctx : Ctx) (options : ExecOptions)
    (attempt : Nat) (st : EngSt) (evs : List JVal) (dur : Nat) (cid : String)
    (hpub : ctx.deps.eventPublisher = true)
    (hfn : ctx.deps.publishIsFunction = true)
    (hcid : ctx.meta.correlationId = some cid)
    (hret : hfun attempt ctx = (.ok (.varr evs), dur))
    (hvalid : ∀ ev ∈ evs, (truthy ev && truthy (getProp ev "eventType")) = true) :
    FlowExecutor.executeEvent stepName channel hfun ctx options attempt st
      = (.ok .vundef,
         { now := st.now,
           trace := st.trace ++ [.invoked stepName attempt]
             ++ evs.map (fun ev => TraceEv.published channel
                 (FlowExecutor.eventWithMeta ev ctx)) },
         dur)
    ∧ ∀ ev ∈ evs, lookupKey (FlowExecutor.eventWithMeta ev ctx) "correlationId"
        = some (.vstr cid) := by
  constructor
  · unfold FlowExecutor.executeEvent
    simp only [hpub, hfn, Bool.not_true, Bool.false_eq_true, if_false]
    rw [hret]
    show (if !truthy (.varr evs) then _ else _) = _
    rw [if_neg (by simp [truthy])]
    rw [FlowExecutor.publishFold_eval channel ctx evs
      (emit st (.invoked stepName attempt))]
    rw [List.filter_eq_self.mpr hvalid]
    simp [emit, List.append_assoc]
  · intro ev _
    unfold FlowExecutor.eventWithMeta
    rw [hcid, lookup_setKey_self]

/-- Witness for C10: of three returned payloads — a valid one, `null`, and
an object without `eventType` — only the valid one is published; the step
still returns `undefined` with no error. -/
theorem event_payload_filter_witness :
    FlowExecutor.executeEvent "pub" "ch" c10fun c10ctx {} 1 { now := 0, trace := [] }
      = (.ok .vundef,
         { now := 0,
           trace := [.invoked "pub" 1,
             .published "ch"
               [("eventType", .vstr "done"), ("correlationId", .vundef)]] },
         0) := by
  have h := event_payload_filter "pub" "ch" c10fun c10ctx {} 1
    { now := 0, trace := [] }
    [.vobj [("eventType", .vstr "done")], .vnull, .vobj [("x", .vnum 1)]] 0
    rfl rfl rfl
  exact h

/-- Witness for C9: two payloads are published in order to the declared
channel, each carrying `correlationId: "run-1"` — the first one's
handler-supplied `correlationId: "handler"` is overridden by the engine. -/
theorem event_enrichment_publish_witness :
    FlowExecutor.executeEvent "pub" "ch" c9fun c9ctx {} 1 { now := 0, trace := [] }
      = (.ok .vundef,
         { now := 0,
           trace := [.invoked "pub" 1,
             .published "ch"
               [("eventType", .vstr "a"), ("correlationId", .vstr "run-1")],
             .published "ch"
               [("eventType", .vstr "b"), ("correlationId", .vstr "run-1")]] },
         0)
    ∧ lookupKey (FlowExecutor.eventWithMeta
        (.vobj [("eventType", .vstr "a"), ("correlationId", .vstr "handler")])
        c9ctx) "correlationId" = some (.vstr "run-1") := by
  have h := event_enrichment_publish "pub" "ch" c9fun c9ctx {} 1
    { now := 0, trace := [] }
    [.vobj [("eventType", .vstr "a"), ("correlationId", .vstr "handler")],
     .vobj [("eventType", .vstr "b")]] 0 "run-1"
    rfl rfl rfl rfl (by decide)
  exact ⟨h.1, h.2 _ (by simp)⟩

/-- C6: a step whose run-condition evaluates false contributes nothing —
the loop continues with the context unchanged (beyond `currentStep`) and
only the skipped notification emitted; and for every run whose loop
completes normally with no retry, the per-step observer notifications
partition, in declaration order, into one block per declared step: the
skipped notification for condition-skipped steps and exactly one
step-start followed by one step-complete for every other step. -/
theorem declaration_order_notifications :
    (∀ (flowName : String) (startTime : Nat) (options : ExecOptions)
      (step : StepDef) (ctx : Ctx) (st : EngSt) (cond : Ctx → Bool),
      FlowExecutor.flowTimeoutHit options startTime st.now = false →
      step.condition = some cond →
      cond (FlowExecutor.withCurrentStep ctx step.name) = false →
      FlowExecutor.stepOnce flowName startTime options step ctx st
        = .next (FlowExecutor.withCurrentStep ctx step.name)
            (emit st (.stepSkipped step.name)))
    ∧ (∀ (flowName : String) (steps : List StepDef) (input : JVal) (deps : Deps)
      (options : ExecOptions) (startTime : Nat) (c : Ctx) (stL : EngSt),
      FlowExecutor.execLoop flowName startTime options steps
        (initialCtx ⟨flowName, steps⟩ input deps options startTime)
        (initialSt ⟨flowName, steps⟩ startTime) = .next c stL →
      stL.trace.countP isStepRetryEv = 0 →
      ∃ blocks : List (List TraceEv),
        obsProj stL.trace = blocks.flatten
        ∧ List.Forall₂ (fun (s : StepDef) b =>
            b = [TraceEv.stepSkipped s.name]
            ∨ b = [TraceEv.stepStart s.name, TraceEv.stepComplete s.name])
          steps blocks) := by
  constructor
  · intro flowName startTime options step ctx st cond hto hcond hfalse
    unfold FlowExecutor.stepOnce
    rw [hto]
    simp only [Bool.false_eq_true, if_false, hcond, hfalse, Bool.not_false,
      if_true]
  · intro flowName steps input deps options startTime c stL hloop hnoretry
    obtain ⟨d, hd, ha, hobs⟩ := FlowExecutor.execLoop_next_trace flowName
      startTime options steps
      (initialCtx ⟨flowName, steps⟩ input deps options startTime)
      (initialSt ⟨flowName, steps⟩ startTime) c stL hloop
    have hz : d.countP isStepRetryEv = 0 := by
      rw [hd, List.countP_append] at hnoretry
      omega
    obtain ⟨blocks, hb, hf⟩ := hobs hz
    refine ⟨blocks, ?_, hf⟩
    rw [hd, obsProj, List.filter_append]
    rw [show List.filter obsEv d = obsProj d from rfl, hb]
    simp [initialSt, emit, obsEv]

/-- Witness for C6: a three-step flow whose middle step's condition is
false yields the observer blocks `[start one, complete one]`,
`[skipped two]`, `[start three, complete three]` in declaration order. -/
theorem declaration_order_notifications_witness :
    ∃ blocks : List (List TraceEv),
      obsProj c6st.trace = blocks.flatten
      ∧ List.Forall₂ (fun (s : StepDef) b =>
          b = [TraceEv.stepSkipped s.name]
          ∨ b = [TraceEv.stepStart s.name, TraceEv.stepComplete s.name])
        c6steps blocks := by
  have h := (declaration_order_notifications).2 "ord" c6steps .vundef {} {} 0
    c6c c6st rfl rfl
  exact h

end Flume
